import Mathlib

/-!
Shallow embedding of the SVG editor core (src/app/editor/svg-editor.tsx).

Modelling conventions:
* JS strings are Lean `String`s; character-level work happens on `List Char`.
* The numeric domain is `ℤ`. The editor's coordinates are pixel offsets and the
  path numerals exercised by the program are integer literals; JS float
  formatting, NaN and fractional literals are outside the embedding. An
  out-of-range JS array read yields `undefined` (NaN downstream); the embedding
  models such reads with `List.getD _ _ 0`, the `0` standing for that sentinel.
* React `useState` cells become fields of an explicit `EditorState`; each event
  handler becomes a pure state transition taking the pointer coordinates (the
  DOM-derived `getRelativePoint`) as arguments.
-/

/-- PathCommand from svg-editor.tsx: a one-letter code plus numeric params. -/
structure PathCommand where
  code : Char
  values : List ℤ
deriving DecidableEq, Repr

/-- PathPoint from svg-editor.tsx: resolved absolute coords plus back-reference. -/
structure PathPoint where
  x : ℤ
  y : ℤ
  cmdIndex : ℕ
  valueIndex : ℕ
deriving DecidableEq, Repr

/-- Separator recognised by the value-splitting regex `/[\s,]+/`. -/
def isSepChar (c : Char) : Bool :=
  c == ' ' || c == ',' || c == '\t' || c == '\n' || c == '\r'

/-- Accumulator pass behind `splitNums`: maximal runs of non-separator chars.
This is the composite of the source's `.trim().split(/[\s,]+/).filter(Boolean)`:
leading/trailing/repeated separators produce no tokens. -/
def splitAux : List Char → List Char → List (List Char)
  | [], buf => if buf.isEmpty then [] else [buf.reverse]
  | c :: rest, buf =>
    if isSepChar c then
      if buf.isEmpty then splitAux rest [] else buf.reverse :: splitAux rest []
    else splitAux rest (c :: buf)

/-- Splits a parameter run into numeric tokens, as in `parsePath`. -/
def splitNums (s : List Char) : List (List Char) := splitAux s []

/-- Decimal accumulator of JS `Number` on a digit string. -/
def parseNatAcc : ℕ → List Char → ℕ
  | acc, [] => acc
  | acc, c :: rest => parseNatAcc (10 * acc + (c.toNat - 48)) rest

/-- JS `Number(token)` on the integer-literal subset: optional `-` then digits.
Tokens outside that subset give NaN in the source; here they give a junk value. -/
def parseNum (w : List Char) : ℤ :=
  if w.head? = some '-' then -(parseNatAcc 0 w.tail : ℤ) else (parseNatAcc 0 w : ℤ)

/-- Structural engine behind `natDigits`: the fuel only bounds the recursion
depth (each division by ten shrinks the number, so `n + 1` fuel always
suffices) and never influences the digits produced. -/
def natGo : ℕ → ℕ → List Char
  | 0, _ => []
  | fuel + 1, n =>
    if n < 10 then [Nat.digitChar n]
    else natGo fuel (n / 10) ++ [Nat.digitChar (n % 10)]

/-- Decimal digit characters of a natural number, most significant first. -/
def natDigits (n : ℕ) : List Char := natGo (n + 1) n

/-- Characters of JS number→string for an integer value. -/
def intChars (n : ℤ) : List Char :=
  if n < 0 then '-' :: natDigits n.natAbs else natDigits n.natAbs

/-- Array.prototype.join(" ") over pre-rendered pieces. -/
def joinSpace : List (List Char) → List Char
  | [] => []
  | [w] => w
  | w :: rest => w ++ ' ' :: joinSpace rest

/-- Characters of one serialized command: `${c.code}${c.values.join(" ")}`. -/
def serCmd (c : PathCommand) : List Char :=
  c.code :: joinSpace (c.values.map intChars)

/-- Characters of `commandsToString`: commands space-joined. -/
def serCmds (cmds : List PathCommand) : List Char :=
  joinSpace (cmds.map serCmd)

/-- commandsToString from svg-editor.tsx. -/
def commandsToString (cmds : List PathCommand) : String :=
  String.mk (serCmds cmds)

/-- Scanner behind `parsePath`'s regex loop `/([a-zA-Z])([^a-zA-Z]*)/g`: each
alphabetic character opens a command and captures the following run of
non-alphabetic characters; characters before the first letter are skipped. -/
def scanAux : List Char → Option (Char × List Char) → List (Char × List Char)
  | [], none => []
  | [], some (code, buf) => [(code, buf.reverse)]
  | c :: rest, none =>
    if c.isAlpha then scanAux rest (some (c, [])) else scanAux rest none
  | c :: rest, some (code, buf) =>
    if c.isAlpha then (code, buf.reverse) :: scanAux rest (some (c, []))
    else scanAux rest (some (code, c :: buf))

/-- parsePath from svg-editor.tsx, over a character list. -/
def parseChars (s : List Char) : List PathCommand :=
  (scanAux s none).map (fun p => ⟨p.1, (splitNums p.2).map parseNum⟩)

/-- parsePath from svg-editor.tsx. -/
def parsePath (d : String) : List PathCommand := parseChars d.toList

/-- Loop of `getPathPoints` for `M`/`L`/`T`: pairs, each updating the current
point; `i` advances by 2 while `i < vals.length`. The first argument is a fuel
bound on the remaining iterations; it is always called with enough fuel
(`vals.length` from index 0), so the exhausted-fuel branch coincides with the
source loop's exit and the fuel never influences the result. -/
def mltGo (ci : ℕ) (rel : Bool) (vals : List ℤ) :
    ℕ → ℤ → ℤ → ℕ → (ℤ × ℤ) × List PathPoint
  | 0, cx, cy, _ => ((cx, cy), [])
  | fuel + 1, cx, cy, i =>
    if i < vals.length then
      let x := if rel then vals.getD i 0 + cx else vals.getD i 0
      let y := if rel then vals.getD (i + 1) 0 + cy else vals.getD (i + 1) 0
      let rest := mltGo ci rel vals fuel x y (i + 2)
      (rest.1, ⟨x, y, ci, i⟩ :: rest.2)
    else ((cx, cy), [])

/-- Loop of `getPathPoints` for `M`/`L`/`T` from the start of the list. -/
def mltLoop (ci : ℕ) (rel : Bool) (vals : List ℤ) (cx cy : ℤ) :
    (ℤ × ℤ) × List PathPoint :=
  mltGo ci rel vals vals.length cx cy 0

/-- Loop of `getPathPoints` for `H` (fuel-bounded as in `mltGo`): single x
values; `cy` is never written. -/
def hGo (ci : ℕ) (rel : Bool) (vals : List ℤ) :
    ℕ → ℤ → ℤ → ℕ → (ℤ × ℤ) × List PathPoint
  | 0, cx, cy, _ => ((cx, cy), [])
  | fuel + 1, cx, cy, i =>
    if i < vals.length then
      let x := if rel then vals.getD i 0 + cx else vals.getD i 0
      let rest := hGo ci rel vals fuel x cy (i + 1)
      (rest.1, ⟨x, cy, ci, i⟩ :: rest.2)
    else ((cx, cy), [])

/-- Loop of `getPathPoints` for `H` from the start of the list. -/
def hLoop (ci : ℕ) (rel : Bool) (vals : List ℤ) (cx cy : ℤ) :
    (ℤ × ℤ) × List PathPoint :=
  hGo ci rel vals vals.length cx cy 0

/-- Loop of `getPathPoints` for `V` (fuel-bounded as in `mltGo`): single y
values; `cx` is never written. -/
def vGo (ci : ℕ) (rel : Bool) (vals : List ℤ) :
    ℕ → ℤ → ℤ → ℕ → (ℤ × ℤ) × List PathPoint
  | 0, cx, cy, _ => ((cx, cy), [])
  | fuel + 1, cx, cy, i =>
    if i < vals.length then
      let y := if rel then vals.getD i 0 + cy else vals.getD i 0
      let rest := vGo ci rel vals fuel cx y (i + 1)
      (rest.1, ⟨cx, y, ci, i⟩ :: rest.2)
    else ((cx, cy), [])

/-- Loop of `getPathPoints` for `V` from the start of the list. -/
def vLoop (ci : ℕ) (rel : Bool) (vals : List ℤ) (cx cy : ℤ) :
    (ℤ × ℤ) × List PathPoint :=
  vGo ci rel vals vals.length cx cy 0

/-- Loop of `getPathPoints` for `C`/`S`/`Q` (fuel-bounded as in `mltGo`): every
pair is emitted; the current point is updated only when `i >= vals.length - 2`
(written `i + 2 ≥ length`, which agrees with the source's JS integer comparison
for every length). -/
def csqGo (ci : ℕ) (rel : Bool) (vals : List ℤ) :
    ℕ → ℤ → ℤ → ℕ → (ℤ × ℤ) × List PathPoint
  | 0, cx, cy, _ => ((cx, cy), [])
  | fuel + 1, cx, cy, i =>
    if i < vals.length then
      let x := if rel then vals.getD i 0 + cx else vals.getD i 0
      let y := if rel then vals.getD (i + 1) 0 + cy else vals.getD (i + 1) 0
      let cp := if i + 2 ≥ vals.length then (x, y) else (cx, cy)
      let rest := csqGo ci rel vals fuel cp.1 cp.2 (i + 2)
      (rest.1, ⟨x, y, ci, i⟩ :: rest.2)
    else ((cx, cy), [])

/-- Loop of `getPathPoints` for `C`/`S`/`Q` from the start of the list. -/
def csqLoop (ci : ℕ) (rel : Bool) (vals : List ℤ) (cx cy : ℤ) :
    (ℤ × ℤ) × List PathPoint :=
  csqGo ci rel vals vals.length cx cy 0

/-- Loop of `getPathPoints` for `A` (fuel-bounded as in `mltGo`): groups of 7,
only the trailing pair at offsets `i+5`, `i+6` is resolved and emitted. -/
def aGo (ci : ℕ) (rel : Bool) (vals : List ℤ) :
    ℕ → ℤ → ℤ → ℕ → (ℤ × ℤ) × List PathPoint
  | 0, cx, cy, _ => ((cx, cy), [])
  | fuel + 1, cx, cy, i =>
    if i < vals.length then
      let x := if rel then vals.getD (i + 5) 0 + cx else vals.getD (i + 5) 0
      let y := if rel then vals.getD (i + 6) 0 + cy else vals.getD (i + 6) 0
      let rest := aGo ci rel vals fuel x y (i + 7)
      (rest.1, ⟨x, y, ci, i + 5⟩ :: rest.2)
    else ((cx, cy), [])

/-- Loop of `getPathPoints` for `A` from the start of the list. -/
def aLoop (ci : ℕ) (rel : Bool) (vals : List ℤ) (cx cy : ℤ) :
    (ℤ × ℤ) × List PathPoint :=
  aGo ci rel vals vals.length cx cy 0

/-- One iteration of `getPathPoints`'s `forEach`: dispatch on the uppercased
code; `Z` and unknown codes fall through emitting nothing. -/
def stepCmd (cx cy : ℤ) (ci : ℕ) (cmd : PathCommand) :
    (ℤ × ℤ) × List PathPoint :=
  let upper := cmd.code.toUpper
  let rel := cmd.code != upper
  match upper with
  | 'M' => mltLoop ci rel cmd.values cx cy
  | 'L' => mltLoop ci rel cmd.values cx cy
  | 'T' => mltLoop ci rel cmd.values cx cy
  | 'H' => hLoop ci rel cmd.values cx cy
  | 'V' => vLoop ci rel cmd.values cx cy
  | 'C' => csqLoop ci rel cmd.values cx cy
  | 'S' => csqLoop ci rel cmd.values cx cy
  | 'Q' => csqLoop ci rel cmd.values cx cy
  | 'A' => aLoop ci rel cmd.values cx cy
  | _ => ((cx, cy), [])

/-- Walk of `getPathPoints` over the command list, threading the current point
and the running command index. -/
def runCmds (cx cy : ℤ) (ci : ℕ) : List PathCommand → List PathPoint
  | [] => []
  | c :: rest =>
    let r := stepCmd cx cy ci c
    r.2 ++ runCmds r.1.1 r.1.2 (ci + 1) rest

/-- getPathPoints from svg-editor.tsx: current point starts at (0,0). -/
def getPathPoints (cmds : List PathCommand) : List PathPoint :=
  runCmds 0 0 0 cmds

/-- JS array element assignment `arr[i] = v`: in range it overwrites, past the
end it extends the array, holes standing for the `undefined` sentinel `0`. -/
def jsSet (l : List ℤ) (i : ℕ) (v : ℤ) : List ℤ :=
  if i < l.length then l.set i v
  else l ++ List.replicate (i - l.length) 0 ++ [v]

/-- movePathPoint from svg-editor.tsx, as a pure function on the command list.
A relative command has its code flipped to uppercase (when already absolute the
code equals its uppercasing, so writing the uppercase code is the identity);
then only the addressed values are rewritten, per code. The source reads
`commands[point.cmdIndex]` without a bounds check; out of range it would throw,
so the embedding is only meaningful for `point.cmdIndex < commands.length`. -/
def movePathPoint (cmds : List PathCommand) (pt : PathPoint) (nx ny : ℤ) :
    List PathCommand :=
  let cmd := cmds.getD pt.cmdIndex ⟨'Z', []⟩
  let upper := cmd.code.toUpper
  let vals := cmd.values
  let newVals :=
    match upper with
    | 'M' => jsSet (jsSet vals pt.valueIndex nx) (pt.valueIndex + 1) ny
    | 'L' => jsSet (jsSet vals pt.valueIndex nx) (pt.valueIndex + 1) ny
    | 'T' => jsSet (jsSet vals pt.valueIndex nx) (pt.valueIndex + 1) ny
    | 'H' => jsSet vals pt.valueIndex nx
    | 'V' => jsSet vals pt.valueIndex ny
    | 'C' => jsSet (jsSet vals pt.valueIndex nx) (pt.valueIndex + 1) ny
    | 'S' => jsSet (jsSet vals pt.valueIndex nx) (pt.valueIndex + 1) ny
    | 'Q' => jsSet (jsSet vals pt.valueIndex nx) (pt.valueIndex + 1) ny
    | 'A' => jsSet (jsSet vals pt.valueIndex nx) (pt.valueIndex + 1) ny
    | _ => vals
  cmds.set pt.cmdIndex ⟨upper, newVals⟩

/-- Shape from svg-editor.tsx: the tagged union of rect, circle and path. -/
inductive Shape where
  | rect (id : ℕ) (x y width height : ℤ) (fill stroke : String)
  | circle (id : ℕ) (cx cy r : ℤ) (fill stroke : String)
  | path (id : ℕ) (commands : List PathCommand) (d : String) (fill stroke : String)
deriving DecidableEq, Repr

/-- Identifier of a shape (`s.id` in the source). -/
def Shape.id : Shape → ℕ
  | .rect i _ _ _ _ _ _ => i
  | .circle i _ _ _ _ _ => i
  | .path i _ _ _ _ => i

/-- Fill update `{ ...s, fill: value }`. -/
def Shape.withFill : Shape → String → Shape
  | .rect i x y w h _ k, v => .rect i x y w h v k
  | .circle i cx cy r _ k, v => .circle i cx cy r v k
  | .path i cs d _ k, v => .path i cs d v k

/-- Stroke update `{ ...s, stroke: value }`. -/
def Shape.withStroke : Shape → String → Shape
  | .rect i x y w h f _, v => .rect i x y w h f v
  | .circle i cx cy r f _, v => .circle i cx cy r f v
  | .path i cs d f _, v => .path i cs d f v

/-- Shape kind selected in the toolbar (`shapeType` state). -/
inductive SKind where
  | rectKind
  | circleKind
deriving DecidableEq, Repr

/-- Deep copy used before every recorded mutation (`snapshot` in the source):
paths get their command list and value arrays cloned, other shapes are spread.
In a value semantics this is the identity, which is exactly what makes the
source's snapshots structurally independent. -/
def snapshot (l : List Shape) : List Shape :=
  l.map fun s =>
    match s with
    | .path i cs d f k => .path i (cs.map fun c => ⟨c.code, c.values⟩) d f k
    | s => s

/-- React state of `SvgEditor`, one field per `useState`/`useRef` cell the core
logic touches (`svgRef`/`fileInputRef` are DOM glue and carry no model state). -/
structure EditorState where
  shapes : List Shape
  drawing : Option Shape
  shapeType : SKind
  color : String
  history : List (List Shape)
  future : List (List Shape)
  selectedId : Option ℕ
  draggingId : Option ℕ
  selectedPoint : Option PathPoint
  draggingPoint : Option PathPoint
  pointMenu : Option (ℤ × ℤ)
  dragOffset : Option (ℤ × ℤ)
  idCounter : ℕ
deriving DecidableEq, Repr

/-- onMouseDown on the canvas: record a snapshot, clear the redo stack, and
start drawing a fresh zero-sized shape with the next identifier. -/
def onMouseDown (st : EditorState) (x y : ℤ) : EditorState :=
  let newShape : Shape :=
    match st.shapeType with
    | .rectKind => .rect st.idCounter x y 0 0 st.color st.color
    | .circleKind => .circle st.idCounter x y 0 st.color st.color
  { st with
    pointMenu := none
    history := st.history ++ [snapshot st.shapes]
    future := []
    drawing := some newShape
    shapes := st.shapes ++ [newShape]
    idCounter := st.idCounter + 1 }

/-- onShapeMouseDown: select the shape, record a snapshot, clear redo, and for
rect/circle start a drag with the pointer offset; paths clear `draggingId`. -/
def onShapeMouseDown (st : EditorState) (sh : Shape) (x y : ℤ) : EditorState :=
  let base :=
    { st with
      pointMenu := none
      selectedId := some sh.id
      history := st.history ++ [snapshot st.shapes]
      future := [] }
  match sh with
  | .rect _ rx ry _ _ _ _ =>
    { base with dragOffset := some (x - rx, y - ry), draggingId := some sh.id }
  | .circle _ ccx ccy _ _ _ =>
    { base with dragOffset := some (x - ccx, y - ccy), draggingId := some sh.id }
  | .path _ _ _ _ _ => { base with draggingId := none }

/-- onPointMouseDown: select shape and point, record a snapshot, clear redo,
and start dragging the point. -/
def onPointMouseDown (st : EditorState) (sid : ℕ) (pt : PathPoint) (x y : ℤ) :
    EditorState :=
  { st with
    pointMenu := none
    selectedId := some sid
    selectedPoint := some pt
    history := st.history ++ [snapshot st.shapes]
    future := []
    dragOffset := some (x - pt.x, y - pt.y)
    draggingPoint := some pt }

/-- Splice of `handleInsert`: `cmds.splice(n, 0, c)` inserts at position `n`,
clamped to the end of the list. -/
def spliceInsert (l : List PathCommand) (n : ℕ) (c : PathCommand) :
    List PathCommand :=
  l.take n ++ c :: l.drop n

/-- Per-shape body of `handleInsert`'s `setShapes` map. -/
def insertIntoShape (sid : ℕ) (pt : PathPoint) (code : Char) (s : Shape) : Shape :=
  match s with
  | .path i cs _ f k =>
    if i = sid then
      let cs' := spliceInsert cs (pt.cmdIndex + 1) ⟨code, [pt.x, pt.y]⟩
      .path i cs' (commandsToString cs') f k
    else s
  | s => s

/-- handleInsert from svg-editor.tsx: a no-op without a selected point and
shape; otherwise the new command, seeded with the selected point's coordinates,
is spliced right after the owning command and the cached `d` regenerated. -/
def handleInsert (st : EditorState) (code : Char) : EditorState :=
  match st.selectedPoint, st.selectedId with
  | some pt, some sid =>
    { st with
      shapes := st.shapes.map (insertIntoShape sid pt code)
      pointMenu := none }
  | _, _ => st

/-- Replacement parameter list used by `handleConvert`, sized for the new code. -/
def convertValues (code : Char) (pt : PathPoint) : List ℤ :=
  if code.toUpper = 'H' then [pt.x]
  else if code.toUpper = 'V' then [pt.y]
  else if code.toUpper = 'Z' then []
  else [pt.x, pt.y]

/-- Per-shape body of `handleConvert`'s `setShapes` map. The source mutates
`cmds[selectedPoint.cmdIndex]` in place (throwing on a stale out-of-range
index); `List.set` is its in-range behaviour. -/
def convertShape (sid : ℕ) (pt : PathPoint) (code : Char) (s : Shape) : Shape :=
  match s with
  | .path i cs _ f k =>
    if i = sid then
      let cs' := cs.set pt.cmdIndex ⟨code, convertValues code pt⟩
      .path i cs' (commandsToString cs') f k
    else s
  | s => s

/-- handleConvert from svg-editor.tsx. -/
def handleConvert (st : EditorState) (code : Char) : EditorState :=
  match st.selectedPoint, st.selectedId with
  | some pt, some sid =>
    { st with
      shapes := st.shapes.map (convertShape sid pt code)
      pointMenu := none }
  | _, _ => st

/-- Per-shape body of `handleSetRelative`: toggle the code's case. -/
def setRelShape (sid : ℕ) (pt : PathPoint) (s : Shape) : Shape :=
  match s with
  | .path i cs _ f k =>
    if i = sid then
      let old := cs.getD pt.cmdIndex ⟨'Z', []⟩
      let newCode :=
        if old.code = old.code.toUpper then old.code.toLower else old.code.toUpper
      let cs' := cs.set pt.cmdIndex ⟨newCode, old.values⟩
      .path i cs' (commandsToString cs') f k
    else s
  | s => s

/-- handleSetRelative from svg-editor.tsx. -/
def handleSetRelative (st : EditorState) : EditorState :=
  match st.selectedPoint, st.selectedId with
  | some pt, some sid =>
    { st with
      shapes := st.shapes.map (setRelShape sid pt)
      pointMenu := none }
  | _, _ => st

/-- Per-shape body of `handleDeletePoint`: `cmds.splice(cmdIndex, 1)` removes
the owning command (a no-op past the end, as in JS). -/
def deleteShape (sid : ℕ) (pt : PathPoint) (s : Shape) : Shape :=
  match s with
  | .path i cs _ f k =>
    if i = sid then
      let cs' := cs.take pt.cmdIndex ++ cs.drop (pt.cmdIndex + 1)
      .path i cs' (commandsToString cs') f k
    else s
  | s => s

/-- handleDeletePoint from svg-editor.tsx. -/
def handleDeletePoint (st : EditorState) : EditorState :=
  match st.selectedPoint, st.selectedId with
  | some pt, some sid =>
    { st with
      shapes := st.shapes.map (deleteShape sid pt)
      selectedPoint := none
      pointMenu := none }
  | _, _ => st

/-- Per-shape body of the dragging-point branch of `onMouseMove`. -/
def moveInShape (sel : Option ℕ) (pt : PathPoint) (nx ny : ℤ) (s : Shape) :
    Shape :=
  match s with
  | .path i cs _ f k =>
    if some i = sel then
      let cs' := movePathPoint cs pt nx ny
      .path i cs' (commandsToString cs') f k
    else s
  | s => s

/-- Dragging-point branch of `onMouseMove` (lines 445-461 of the source): move
the dragged point of the selected path to the pointer minus the drag offset and
refresh the dragged/selected point. History and future are not touched. -/
def dragPointMove (st : EditorState) (x y : ℤ) : EditorState :=
  match st.draggingPoint, st.dragOffset with
  | some pt, some off =>
    let nx := x - off.1
    let ny := y - off.2
    let upd : PathPoint := ⟨nx, ny, pt.cmdIndex, pt.valueIndex⟩
    { st with
      shapes := st.shapes.map (moveInShape st.selectedId pt nx ny)
      draggingPoint := some upd
      selectedPoint := some upd }
  | _, _ => st

/-- Currently selected shape (`shapes.find((s) => s.id === selectedId)`). -/
def selShape (st : EditorState) : Option Shape :=
  st.shapes.find? fun s => some s.id == st.selectedId

/-- Fill-color change handler of the Shape Tools panel: the control only exists
when a shape is selected; it records a snapshot, clears redo, and recolors the
selected shape. -/
def setFillColor (st : EditorState) (v : String) : EditorState :=
  match selShape st with
  | some sh =>
    { st with
      history := st.history ++ [snapshot st.shapes]
      future := []
      shapes := st.shapes.map fun s => if s.id = sh.id then s.withFill v else s }
  | none => st

/-- Stroke-color change handler of the Shape Tools panel. -/
def setStrokeColor (st : EditorState) (v : String) : EditorState :=
  match selShape st with
  | some sh =>
    { st with
      history := st.history ++ [snapshot st.shapes]
      future := []
      shapes := st.shapes.map fun s => if s.id = sh.id then s.withStroke v else s }
  | none => st

/-- clear from svg-editor.tsx: record a snapshot and clear redo only when there
are shapes, then empty the shape list (the viewBox reset is DOM glue). -/
def clear (st : EditorState) : EditorState :=
  let st1 :=
    if st.shapes.isEmpty then st
    else { st with history := st.history ++ [snapshot st.shapes], future := [] }
  { st1 with shapes := [] }

/-- undo from svg-editor.tsx: a no-op on empty history; otherwise pop the last
snapshot, push the current shapes onto the front of future, restore. -/
def undo (st : EditorState) : EditorState :=
  match st.history.getLast? with
  | none => st
  | some previous =>
    { st with
      shapes := previous
      history := st.history.dropLast
      future := snapshot st.shapes :: st.future }

/-- redo from svg-editor.tsx: the mirror of undo. -/
def redo (st : EditorState) : EditorState :=
  match st.future with
  | [] => st
  | next :: rest =>
    { st with
      shapes := next
      future := rest
      history := st.history ++ [snapshot st.shapes] }

/-- Parsed `rect` element as handed over by the DOM: absent attributes are
`none` (the handler applies the source's `|| "0"` / color fallbacks). -/
structure RectEl where
  x : Option ℤ
  y : Option ℤ
  width : Option ℤ
  height : Option ℤ
  fill : Option String
  stroke : Option String
deriving DecidableEq, Repr

/-- Parsed `circle` element. -/
structure CircleEl where
  cx : Option ℤ
  cy : Option ℤ
  r : Option ℤ
  fill : Option String
  stroke : Option String
deriving DecidableEq, Repr

/-- Parsed `path` element. -/
structure PathEl where
  d : Option String
  fill : Option String
  stroke : Option String
deriving DecidableEq, Repr

/-- Imported document as seen by `handleFile` after `DOMParser`: the three
`querySelectorAll` passes give the rects, circles and paths in document order. -/
structure SvgDoc where
  rects : List RectEl
  circles : List CircleEl
  paths : List PathEl
deriving DecidableEq, Repr

/-- Rect-loading loop of `handleFile`, threading the id counter. -/
def loadRects (i : ℕ) : List RectEl → List Shape
  | [] => []
  | el :: rest =>
    .rect i (el.x.getD 0) (el.y.getD 0) (el.width.getD 0) (el.height.getD 0)
        (el.fill.getD "transparent") (el.stroke.getD "black")
      :: loadRects (i + 1) rest

/-- Circle-loading loop of `handleFile`. -/
def loadCircles (i : ℕ) : List CircleEl → List Shape
  | [] => []
  | el :: rest =>
    .circle i (el.cx.getD 0) (el.cy.getD 0) (el.r.getD 0)
        (el.fill.getD "transparent") (el.stroke.getD "black")
      :: loadCircles (i + 1) rest

/-- Path-loading loop of `handleFile`: `d` is stored verbatim and also parsed
into the command list. -/
def loadPaths (i : ℕ) : List PathEl → List Shape
  | [] => []
  | el :: rest =>
    .path i (parsePath (el.d.getD "")) (el.d.getD "")
        (el.fill.getD "transparent") (el.stroke.getD "black")
      :: loadPaths (i + 1) rest

/-- handleFile from svg-editor.tsx (file-reader callback): build the loaded
shape list with fresh sequential identifiers continuing `idRef`, advance the
counter, and replace the shape list. History and future are never touched; the
viewBox adoption is DOM glue outside the model. -/
def handleFile (st : EditorState) (doc : SvgDoc) : EditorState :=
  let rs := loadRects st.idCounter doc.rects
  let cs := loadCircles (st.idCounter + doc.rects.length) doc.circles
  let ps := loadPaths (st.idCounter + doc.rects.length + doc.circles.length) doc.paths
  { st with
    shapes := rs ++ cs ++ ps
    idCounter := st.idCounter + doc.rects.length + doc.circles.length + doc.paths.length }

/-- Parameter-group arity of a command code (§3 of the path mini-language):
`H`/`V` consume one value per group, `A` seven, pair codes two. -/
def arity (upper : Char) : ℕ :=
  if upper = 'H' ∨ upper = 'V' then 1 else if upper = 'A' then 7 else 2

/-- Largest parameter index a resolved point addresses: `H`/`V` points address
only their own offset, every other code also reads the following value. -/
def lastAddr (upper : Char) (vi : ℕ) : ℕ :=
  if upper = 'H' ∨ upper = 'V' then vi else vi + 1

/-- Cache coherence of one shape: a path's `d` is the serialization of its
command list; non-path shapes are trivially coherent. -/
def pathConsistent (s : Shape) : Bool :=
  match s with
  | .path _ cs d _ _ => d == commandsToString cs
  | _ => true

/-- Structural path edits of the point menu plus the point drag, as one type. -/
inductive EditOp where
  | insertCmd (code : Char)
  | convertCmd (code : Char)
  | setRel
  | deleteCmd
  | movePt (x y : ℤ)
deriving DecidableEq, Repr

/-- Dispatch of an `EditOp` to the corresponding handler. -/
def applyEdit (st : EditorState) : EditOp → EditorState
  | .insertCmd code => handleInsert st code
  | .convertCmd code => handleConvert st code
  | .setRel => handleSetRelative st
  | .deleteCmd => handleDeletePoint st
  | .movePt x y => dragPointMove st x y

/-- User-initiated mutating actions that are guarded by a history snapshot:
drawing start, shape/point drag start, fill/stroke change, clear. -/
inductive MutAction where
  | draw (x y : ℤ)
  | shapeDown (sh : Shape) (x y : ℤ)
  | pointDown (sid : ℕ) (pt : PathPoint) (x y : ℤ)
  | setFill (v : String)
  | setStroke (v : String)
  | clearAct
deriving DecidableEq, Repr

/-- Dispatch of a `MutAction` to the corresponding handler. -/
def applyMut (st : EditorState) : MutAction → EditorState
  | .draw x y => onMouseDown st x y
  | .shapeDown sh x y => onShapeMouseDown st sh x y
  | .pointDown sid pt x y => onPointMouseDown st sid pt x y
  | .setFill v => setFillColor st v
  | .setStroke v => setStrokeColor st v
  | .clearAct => clear st

/-- Whether the action actually records a snapshot in the given state: clear
records only when shapes exist, the color controls only render with a selected
shape, the pointer-down handlers always record. -/
def recordsOkB (st : EditorState) : MutAction → Bool
  | .clearAct => !st.shapes.isEmpty
  | .setFill _ => (selShape st).isSome
  | .setStroke _ => (selShape st).isSome
  | _ => true

/-- Sequential application of mutating actions. -/
def applyMuts : EditorState → List MutAction → EditorState
  | st, [] => st
  | st, m :: rest => applyMuts (applyMut st m) rest

/-- Every action of the sequence records a snapshot in the state it meets. -/
def wfSeq : EditorState → List MutAction → Bool
  | _, [] => true
  | st, m :: rest => recordsOkB st m && wfSeq (applyMut st m) rest

/-- Example path shape for the concrete scenarios: `"M 10 10 L 20 20"` as the
editor stores it after an edit re-serializes it. -/
def exPath : Shape :=
  .path 0 [⟨'M', [10, 10]⟩, ⟨'L', [20, 20]⟩]
    (commandsToString [⟨'M', [10, 10]⟩, ⟨'L', [20, 20]⟩]) "#000000" "#000000"

/-- Example editor state: `exPath` on canvas, its first point (10,10) selected. -/
def exState : EditorState where
  shapes := [exPath]
  drawing := none
  shapeType := .rectKind
  color := "#3b82f6"
  history := []
  future := []
  selectedId := some 0
  draggingId := none
  selectedPoint := some ⟨10, 10, 0, 0⟩
  draggingPoint := none
  pointMenu := none
  dragOffset := none
  idCounter := 1

/-- Example state with a pending redo entry. -/
def exStateRedo : EditorState := { exState with future := [[]] }

/-- Freshly opened editor: nothing drawn, counter at zero. -/
def emptyState : EditorState where
  shapes := []
  drawing := none
  shapeType := .rectKind
  color := "#3b82f6"
  history := []
  future := []
  selectedId := none
  draggingId := none
  selectedPoint := none
  draggingPoint := none
  pointMenu := none
  dragOffset := none
  idCounter := 0

/-- Example imported document: a single path element with `d="M 10 10"`. -/
def exDoc : SvgDoc where
  rects := []
  circles := []
  paths := [⟨some "M 10 10", none, none⟩]


/-! Auxiliary lemmas: decimal digits round-trip through `Number`. -/

/-- Every character `natGo` emits is a digit character below ten. -/
theorem mem_natGo (fuel : ℕ) :
    ∀ n c, c ∈ natGo fuel n → ∃ d, d < 10 ∧ c = Nat.digitChar d := by
  induction fuel with
  | zero => intro n c hc; simp [natGo] at hc
  | succ fuel ih =>
    intro n c hc
    rw [natGo] at hc
    split at hc
    · next h =>
      simp only [List.mem_singleton] at hc
      exact ⟨n, h, hc⟩
    · next h =>
      rcases List.mem_append.mp hc with h1 | h1
      · exact ih (n / 10) c h1
      · simp only [List.mem_singleton] at h1
        exact ⟨n % 10, Nat.mod_lt _ (by omega), h1⟩

/-- Every character `natDigits` emits is a digit character below ten. -/
theorem mem_natDigits (n : ℕ) :
    ∀ c ∈ natDigits n, ∃ d, d < 10 ∧ c = Nat.digitChar d :=
  fun c hc => mem_natGo (n + 1) n c hc

/-- Character facts about a digit character: not alphabetic, not a separator,
not a minus sign, and reading it back recovers its value. -/
theorem digitChar_props (d : ℕ) (h : d < 10) :
    (Nat.digitChar d).isAlpha = false ∧ isSepChar (Nat.digitChar d) = false ∧
      Nat.digitChar d ≠ '-' ∧ (Nat.digitChar d).toNat - 48 = d := by
  interval_cases d <;> exact ⟨by decide, by decide, by decide, by decide⟩

/-- With enough fuel the digit list is never empty. -/
theorem natGo_ne_nil (fuel n : ℕ) (h : n < fuel) : natGo fuel n ≠ [] := by
  cases fuel with
  | zero => omega
  | succ fuel =>
    rw [natGo]
    split <;> simp

/-- The digit list of a natural number is never empty. -/
theorem natDigits_ne_nil (n : ℕ) : natDigits n ≠ [] :=
  natGo_ne_nil (n + 1) n (by omega)

/-- Reading digits folds left over the list. -/
theorem parseNatAcc_append (xs ys : List Char) :
    ∀ acc, parseNatAcc acc (xs ++ ys) = parseNatAcc (parseNatAcc acc xs) ys := by
  induction xs with
  | nil => intro acc; rfl
  | cons c rest ih =>
    intro acc
    rw [List.cons_append]
    show parseNatAcc (10 * acc + (c.toNat - 48)) (rest ++ ys) = _
    rw [ih]
    rfl

/-- Reading back the digit characters of `n` recovers `n` under any prefix
accumulator, for any sufficient fuel. -/
theorem parseNatAcc_natGo (fuel : ℕ) :
    ∀ n, n < fuel →
      ∀ acc, parseNatAcc acc (natGo fuel n) = acc * 10 ^ (natGo fuel n).length + n := by
  induction fuel with
  | zero => intro n hn; omega
  | succ fuel ih =>
    intro n hn acc
    rw [natGo]
    split
    · next h =>
      show 10 * acc + ((Nat.digitChar n).toNat - 48) = acc * 10 ^ (1 : ℕ) + n
      rw [(digitChar_props n h).2.2.2, pow_one]
      omega
    · next h =>
      rw [parseNatAcc_append, ih (n / 10) (by omega)]
      show 10 * (acc * 10 ^ (natGo fuel (n / 10)).length + n / 10)
          + ((Nat.digitChar (n % 10)).toNat - 48)
        = acc * 10 ^ ((natGo fuel (n / 10)) ++ [Nat.digitChar (n % 10)]).length + n
      rw [(digitChar_props (n % 10) (Nat.mod_lt _ (by omega))).2.2.2,
        List.length_append, List.length_cons, List.length_nil, pow_succ]
      have := Nat.div_add_mod n 10
      nlinarith [this]

/-- Reading back the digit characters of `n` recovers `n` under any prefix
accumulator. -/
theorem parseNatAcc_natDigits (n : ℕ) :
    ∀ acc, parseNatAcc acc (natDigits n) = acc * 10 ^ (natDigits n).length + n :=
  parseNatAcc_natGo (n + 1) n (by omega)

/-- Parsing the serialized characters of an integer recovers it. -/
theorem parseNum_intChars (n : ℤ) : parseNum (intChars n) = n := by
  have hdig : ∀ m : ℕ, (natDigits m).head? ≠ some '-' := by
    intro m hcon
    have hne := natDigits_ne_nil m
    obtain ⟨c, t, hct⟩ := List.exists_cons_of_ne_nil hne
    rw [hct] at hcon
    simp only [List.head?_cons, Option.some.injEq] at hcon
    have hm : c ∈ natDigits m := by rw [hct]; exact List.mem_cons_self _ _
    obtain ⟨d, hd, rfl⟩ := mem_natDigits m c hm
    exact (digitChar_props d hd).2.2.1 hcon
  have hrd : ∀ m : ℕ, parseNatAcc 0 (natDigits m) = m := by
    intro m
    rw [parseNatAcc_natDigits m 0]
    simp
  unfold intChars
  split
  · next hneg =>
    unfold parseNum
    have hcond : ('-' :: natDigits n.natAbs).head? = some '-' := rfl
    rw [if_pos hcond, List.tail_cons, hrd]
    omega
  · next hpos =>
    unfold parseNum
    rw [if_neg (hdig n.natAbs)]
    rw [hrd]
    omega

/-- Every character of `intChars n` is neither alphabetic nor a separator. -/
theorem mem_intChars (n : ℤ) :
    ∀ c ∈ intChars n, c.isAlpha = false ∧ isSepChar c = false := by
  intro c hc
  have hdigit : ∀ m : ℕ, c ∈ natDigits m → c.isAlpha = false ∧ isSepChar c = false := by
    intro m hm
    obtain ⟨d, hd, rfl⟩ := mem_natDigits m c hm
    exact ⟨(digitChar_props d hd).1, (digitChar_props d hd).2.1⟩
  unfold intChars at hc
  split at hc
  · rcases List.mem_cons.mp hc with rfl | hm
    · exact ⟨by decide, by decide⟩
    · exact hdigit _ hm
  · exact hdigit _ hc

/-! Auxiliary lemmas: token splitting. -/

/-- Scanning a separator-free chunk just accumulates it into the buffer. -/
theorem splitAux_word (w : List Char) (hw : ∀ c ∈ w, isSepChar c = false) :
    ∀ r buf, splitAux (w ++ r) buf = splitAux r (w.reverse ++ buf) := by
  induction w with
  | nil => intro r buf; simp
  | cons c rest ih =>
    intro r buf
    rw [List.cons_append]
    show splitAux ((c :: rest) ++ r) buf = _
    rw [List.cons_append, splitAux, if_neg]
    · rw [ih (fun d hd => hw d (List.mem_cons_of_mem _ hd)) r (c :: buf)]
      simp
    · simp [hw c (List.mem_cons_self _ _)]

/-- A trailing separator never adds a token. -/
theorem splitAux_trailing (s : List Char) :
    ∀ buf, splitAux (s ++ [' ']) buf = splitAux s buf := by
  induction s with
  | nil =>
    intro buf
    show splitAux [' '] buf = splitAux [] buf
    cases buf with
    | nil => rfl
    | cons b bs => rfl
  | cons c rest ih =>
    intro buf
    rw [List.cons_append]
    have hL : splitAux (c :: (rest ++ [' '])) buf =
        if isSepChar c then
          if buf.isEmpty then splitAux (rest ++ [' ']) []
          else buf.reverse :: splitAux (rest ++ [' ']) []
        else splitAux (rest ++ [' ']) (c :: buf) := rfl
    have hR : splitAux (c :: rest) buf =
        if isSepChar c then
          if buf.isEmpty then splitAux rest []
          else buf.reverse :: splitAux rest []
        else splitAux rest (c :: buf) := rfl
    rw [hL, hR]
    simp only [ih]

/-- A lone separator-free word splits into itself. -/
theorem splitNums_word (w : List Char) (hne : w ≠ [])
    (hw : ∀ c ∈ w, isSepChar c = false) : splitNums w = [w] := by
  unfold splitNums
  have := splitAux_word w hw [] []
  rw [List.append_nil] at this
  rw [this, List.append_nil, splitAux, if_neg (by simpa using hne)]
  simp

/-- A separator-free word followed by a space contributes exactly one token. -/
theorem splitNums_word_sep (w r : List Char) (hne : w ≠ [])
    (hw : ∀ c ∈ w, isSepChar c = false) :
    splitNums (w ++ ' ' :: r) = w :: splitNums r := by
  unfold splitNums
  rw [splitAux_word w hw (' ' :: r) [], List.append_nil, splitAux,
    if_pos (by decide), if_neg (by simpa using hne)]
  simp

/-- Splitting the space-join of nonempty separator-free words recovers them. -/
theorem splitNums_joinSpace (ws : List (List Char))
    (h : ∀ w ∈ ws, w ≠ [] ∧ ∀ c ∈ w, isSepChar c = false) :
    splitNums (joinSpace ws) = ws := by
  induction ws with
  | nil => rfl
  | cons w rest ih =>
    match rest with
    | [] =>
      show splitNums (joinSpace [w]) = [w]
      have hj : joinSpace [w] = w := rfl
      rw [hj]
      exact splitNums_word w (h w (List.mem_cons_self _ _)).1
        (h w (List.mem_cons_self _ _)).2
    | w2 :: rest2 =>
      show splitNums (w ++ ' ' :: joinSpace (w2 :: rest2)) = w :: w2 :: rest2
      rw [splitNums_word_sep _ _ (h w (List.mem_cons_self _ _)).1
        (h w (List.mem_cons_self _ _)).2]
      rw [ih (fun u hu => h u (List.mem_cons_of_mem _ hu))]

/-- Serialized integers are nonempty. -/
theorem intChars_ne_nil (n : ℤ) : intChars n ≠ [] := by
  unfold intChars
  split
  · simp
  · exact natDigits_ne_nil _

/-- Splitting and reading back a space-joined value list recovers it. -/
theorem splitNums_values (vs : List ℤ) :
    (splitNums (joinSpace (vs.map intChars))).map parseNum = vs := by
  rw [splitNums_joinSpace]
  · rw [List.map_map]
    have : (parseNum ∘ intChars) = id := by
      funext n
      exact parseNum_intChars n
    rw [this, List.map_id]
  · intro w hw
    obtain ⟨v, _, rfl⟩ := List.mem_map.mp hw
    exact ⟨intChars_ne_nil v, fun c hc => (mem_intChars v c hc).2⟩

/-! Auxiliary lemmas: the command scanner. -/

/-- Scanning a run of non-alphabetic characters accumulates it. -/
theorem scanAux_nonalpha (s : List Char) (hs : ∀ c ∈ s, c.isAlpha = false) :
    ∀ rest code buf,
      scanAux (s ++ rest) (some (code, buf)) =
        scanAux rest (some (code, s.reverse ++ buf)) := by
  induction s with
  | nil => intro rest code buf; simp
  | cons c t ih =>
    intro rest code buf
    rw [List.cons_append, scanAux, if_neg]
    · rw [ih (fun d hd => hs d (List.mem_cons_of_mem _ hd)) rest code (c :: buf)]
      simp
    · simp [hs c (List.mem_cons_self _ _)]

/-- At the end of input or at the next letter, the open command is emitted. -/
theorem scanAux_emit (s : List Char) (code : Char) (buf : List Char)
    (hs : s = [] ∨ ∃ a t, s = a :: t ∧ a.isAlpha = true) :
    scanAux s (some (code, buf)) = (code, buf.reverse) :: scanAux s none := by
  rcases hs with rfl | ⟨a, t, rfl, ha⟩
  · rfl
  · have h1 : scanAux (a :: t) (some (code, buf)) =
        (code, buf.reverse) :: scanAux t (some (a, [])) := by
      rw [scanAux, if_pos ha]
    have h2 : scanAux (a :: t) none = scanAux t (some (a, [])) := by
      rw [scanAux, if_pos ha]
    rw [h1, h2]

/-- Characters in a space-join come from a word or are the joining space. -/
theorem mem_joinSpace (ws : List (List Char)) (c : Char) :
    c ∈ joinSpace ws → c = ' ' ∨ ∃ w ∈ ws, c ∈ w := by
  induction ws with
  | nil =>
    intro h
    have hj : joinSpace ([] : List (List Char)) = [] := rfl
    rw [hj] at h
    simp at h
  | cons w rest ih =>
    match rest with
    | [] =>
      intro h
      have hj : joinSpace [w] = w := rfl
      rw [hj] at h
      exact Or.inr ⟨w, List.mem_cons_self _ _, h⟩
    | w2 :: rest2 =>
      intro h
      have hj : joinSpace (w :: w2 :: rest2) = w ++ ' ' :: joinSpace (w2 :: rest2) := rfl
      rw [hj] at h
      rcases List.mem_append.mp h with h1 | h1
      · exact Or.inr ⟨w, List.mem_cons_self _ _, h1⟩
      · rcases List.mem_cons.mp h1 with rfl | h2
        · exact Or.inl rfl
        · rcases ih h2 with h3 | ⟨u, hu, hcu⟩
          · exact Or.inl h3
          · exact Or.inr ⟨u, List.mem_cons_of_mem _ hu, hcu⟩

/-- The serialized parameter run of a command is entirely non-alphabetic. -/
theorem serBody_nonalpha (vs : List ℤ) :
    ∀ c ∈ joinSpace (vs.map intChars), c.isAlpha = false := by
  intro c hc
  rcases mem_joinSpace _ c hc with rfl | ⟨w, hw, hcw⟩
  · decide
  · obtain ⟨v, _, rfl⟩ := List.mem_map.mp hw
    exact (mem_intChars v c hcw).1

/-- The serialization of a nonempty command list starts with the first code. -/
theorem serCmds_cons_head (c : PathCommand) (rest : List PathCommand) :
    ∃ t, serCmds (c :: rest) = c.code :: t := by
  unfold serCmds
  match rest with
  | [] => exact ⟨joinSpace (c.values.map intChars), rfl⟩
  | c2 :: rest2 =>
    exact ⟨joinSpace (c.values.map intChars) ++
      ' ' :: joinSpace ((c2 :: rest2).map serCmd), rfl⟩

/-- Re-parsing the serialization of a command list whose codes are letters
recovers the command list exactly. -/
theorem parseChars_serCmds (cmds : List PathCommand)
    (h : ∀ c ∈ cmds, c.code.isAlpha = true) : parseChars (serCmds cmds) = cmds := by
  induction cmds with
  | nil => rfl
  | cons c rest ih =>
    have hc : c.code.isAlpha = true := h c (List.mem_cons_self _ _)
    match rest with
    | [] =>
      show parseChars (serCmd c) = [c]
      have hser : serCmd c = c.code :: joinSpace (c.values.map intChars) := rfl
      unfold parseChars
      rw [hser]
      have h1 : scanAux (c.code :: joinSpace (c.values.map intChars)) none
          = scanAux (joinSpace (c.values.map intChars)) (some (c.code, [])) := by
        rw [scanAux, if_pos hc]
      rw [h1]
      have hbody := scanAux_nonalpha (joinSpace (c.values.map intChars))
        (serBody_nonalpha c.values) [] c.code []
      rw [List.append_nil] at hbody
      rw [hbody]
      have h2 : scanAux [] (some (c.code, (joinSpace (c.values.map intChars)).reverse ++ []))
          = [(c.code, ((joinSpace (c.values.map intChars)).reverse ++ []).reverse)] := rfl
      rw [h2, List.append_nil, List.reverse_reverse, List.map_cons, List.map_nil,
        splitNums_values]
    | c2 :: rest2 =>
      have hsplit : serCmds (c :: c2 :: rest2) = c.code ::
          ((joinSpace (c.values.map intChars) ++ [' ']) ++ serCmds (c2 :: rest2)) := by
        show serCmd c ++ ' ' :: serCmds (c2 :: rest2) = _
        show c.code :: (joinSpace (c.values.map intChars) ++ ' ' :: serCmds (c2 :: rest2)) = _
        rw [List.append_assoc]
        rfl
      unfold parseChars
      rw [hsplit]
      have h1 : scanAux (c.code ::
            ((joinSpace (c.values.map intChars) ++ [' ']) ++ serCmds (c2 :: rest2))) none
          = scanAux ((joinSpace (c.values.map intChars) ++ [' ']) ++ serCmds (c2 :: rest2))
              (some (c.code, [])) := by
        rw [scanAux, if_pos hc]
      rw [h1]
      rw [scanAux_nonalpha _ (by
        intro d hd
        rcases List.mem_append.mp hd with h1 | h1
        · exact serBody_nonalpha c.values d h1
        · simp only [List.mem_singleton] at h1
          subst h1
          decide) _ c.code []]
      obtain ⟨t, ht⟩ := serCmds_cons_head c2 rest2
      have hc2 : c2.code.isAlpha = true := h c2 (List.mem_cons_of_mem _ (List.mem_cons_self _ _))
      rw [scanAux_emit _ _ _ (Or.inr ⟨c2.code, t, ht, hc2⟩)]
      rw [List.map_cons]
      have hihs : parseChars (serCmds (c2 :: rest2)) = c2 :: rest2 :=
        ih (fun u hu => h u (List.mem_cons_of_mem _ hu))
      unfold parseChars at hihs
      rw [hihs]
      rw [List.append_nil, List.reverse_reverse]
      have htr : splitNums (joinSpace (c.values.map intChars) ++ [' '])
          = splitNums (joinSpace (c.values.map intChars)) :=
        splitAux_trailing (joinSpace (c.values.map intChars)) []
      show (⟨c.code, (splitNums (joinSpace (c.values.map intChars) ++ [' '])).map parseNum⟩
        : PathCommand) :: c2 :: rest2 = c :: c2 :: rest2
      rw [htr, splitNums_values]

/-! Auxiliary lemmas: resolver loops. -/

/-- Unfolding of one `M`/`L`/`T` iteration. -/
theorem mltGo_succ (ci : ℕ) (rel : Bool) (vals : List ℤ) (fuel : ℕ) (cx cy : ℤ)
    (i : ℕ) (hi : i < vals.length) :
    mltGo ci rel vals (fuel + 1) cx cy i =
      ((mltGo ci rel vals fuel
          (if rel then vals.getD i 0 + cx else vals.getD i 0)
          (if rel then vals.getD (i + 1) 0 + cy else vals.getD (i + 1) 0) (i + 2)).1,
        ⟨(if rel then vals.getD i 0 + cx else vals.getD i 0),
         (if rel then vals.getD (i + 1) 0 + cy else vals.getD (i + 1) 0), ci, i⟩ ::
        (mltGo ci rel vals fuel
          (if rel then vals.getD i 0 + cx else vals.getD i 0)
          (if rel then vals.getD (i + 1) 0 + cy else vals.getD (i + 1) 0) (i + 2)).2) := by
  rw [mltGo, if_pos hi]

/-- Exit of the `M`/`L`/`T` loop. -/
theorem mltGo_exit (ci : ℕ) (rel : Bool) (vals : List ℤ) (fuel : ℕ) (cx cy : ℤ)
    (i : ℕ) (hi : ¬ i < vals.length) :
    mltGo ci rel vals (fuel + 1) cx cy i = ((cx, cy), []) := by
  rw [mltGo, if_neg hi]

/-- Unfolding of one `H` iteration. -/
theorem hGo_succ (ci : ℕ) (rel : Bool) (vals : List ℤ) (fuel : ℕ) (cx cy : ℤ)
    (i : ℕ) (hi : i < vals.length) :
    hGo ci rel vals (fuel + 1) cx cy i =
      ((hGo ci rel vals fuel
          (if rel then vals.getD i 0 + cx else vals.getD i 0) cy (i + 1)).1,
        ⟨(if rel then vals.getD i 0 + cx else vals.getD i 0), cy, ci, i⟩ ::
        (hGo ci rel vals fuel
          (if rel then vals.getD i 0 + cx else vals.getD i 0) cy (i + 1)).2) := by
  rw [hGo, if_pos hi]

/-- Exit of the `H` loop. -/
theorem hGo_exit (ci : ℕ) (rel : Bool) (vals : List ℤ) (fuel : ℕ) (cx cy : ℤ)
    (i : ℕ) (hi : ¬ i < vals.length) :
    hGo ci rel vals (fuel + 1) cx cy i = ((cx, cy), []) := by
  rw [hGo, if_neg hi]

/-- Unfolding of one `V` iteration. -/
theorem vGo_succ (ci : ℕ) (rel : Bool) (vals : List ℤ) (fuel : ℕ) (cx cy : ℤ)
    (i : ℕ) (hi : i < vals.length) :
    vGo ci rel vals (fuel + 1) cx cy i =
      ((vGo ci rel vals fuel cx
          (if rel then vals.getD i 0 + cy else vals.getD i 0) (i + 1)).1,
        ⟨cx, (if rel then vals.getD i 0 + cy else vals.getD i 0), ci, i⟩ ::
        (vGo ci rel vals fuel cx
          (if rel then vals.getD i 0 + cy else vals.getD i 0) (i + 1)).2) := by
  rw [vGo, if_pos hi]

/-- Exit of the `V` loop. -/
theorem vGo_exit (ci : ℕ) (rel : Bool) (vals : List ℤ) (fuel : ℕ) (cx cy : ℤ)
    (i : ℕ) (hi : ¬ i < vals.length) :
    vGo ci rel vals (fuel + 1) cx cy i = ((cx, cy), []) := by
  rw [vGo, if_neg hi]

/-- Unfolding of one `A` iteration. -/
theorem aGo_succ (ci : ℕ) (rel : Bool) (vals : List ℤ) (fuel : ℕ) (cx cy : ℤ)
    (i : ℕ) (hi : i < vals.length) :
    aGo ci rel vals (fuel + 1) cx cy i =
      ((aGo ci rel vals fuel
          (if rel then vals.getD (i + 5) 0 + cx else vals.getD (i + 5) 0)
          (if rel then vals.getD (i + 6) 0 + cy else vals.getD (i + 6) 0) (i + 7)).1,
        ⟨(if rel then vals.getD (i + 5) 0 + cx else vals.getD (i + 5) 0),
         (if rel then vals.getD (i + 6) 0 + cy else vals.getD (i + 6) 0), ci, i + 5⟩ ::
        (aGo ci rel vals fuel
          (if rel then vals.getD (i + 5) 0 + cx else vals.getD (i + 5) 0)
          (if rel then vals.getD (i + 6) 0 + cy else vals.getD (i + 6) 0) (i + 7)).2) := by
  rw [aGo, if_pos hi]

/-- Exit of the `A` loop. -/
theorem aGo_exit (ci : ℕ) (rel : Bool) (vals : List ℤ) (fuel : ℕ) (cx cy : ℤ)
    (i : ℕ) (hi : ¬ i < vals.length) :
    aGo ci rel vals (fuel + 1) cx cy i = ((cx, cy), []) := by
  rw [aGo, if_neg hi]

/-- Unfolding of one `C`/`S`/`Q` iteration (the updated current point is spelled
with the same conditional the source uses). -/
theorem csqGo_succ (ci : ℕ) (rel : Bool) (vals : List ℤ) (fuel : ℕ) (cx cy : ℤ)
    (i : ℕ) (hi : i < vals.length) :
    csqGo ci rel vals (fuel + 1) cx cy i =
      ((csqGo ci rel vals fuel
          (if i + 2 ≥ vals.length then
            (if rel then vals.getD i 0 + cx else vals.getD i 0) else cx)
          (if i + 2 ≥ vals.length then
            (if rel then vals.getD (i + 1) 0 + cy else vals.getD (i + 1) 0) else cy)
          (i + 2)).1,
        ⟨(if rel then vals.getD i 0 + cx else vals.getD i 0),
         (if rel then vals.getD (i + 1) 0 + cy else vals.getD (i + 1) 0), ci, i⟩ ::
        (csqGo ci rel vals fuel
          (if i + 2 ≥ vals.length then
            (if rel then vals.getD i 0 + cx else vals.getD i 0) else cx)
          (if i + 2 ≥ vals.length then
            (if rel then vals.getD (i + 1) 0 + cy else vals.getD (i + 1) 0) else cy)
          (i + 2)).2) := by
  rw [csqGo, if_pos hi]
  by_cases hc : i + 2 ≥ vals.length
  · simp only [if_pos hc]
  · simp only [if_neg hc]

/-- Exit of the `C`/`S`/`Q` loop. -/
theorem csqGo_exit (ci : ℕ) (rel : Bool) (vals : List ℤ) (fuel : ℕ) (cx cy : ℤ)
    (i : ℕ) (hi : ¬ i < vals.length) :
    csqGo ci rel vals (fuel + 1) cx cy i = ((cx, cy), []) := by
  rw [csqGo, if_neg hi]

/-- Emitted `M`/`L`/`T` points carry the running command index and an offset
inside the list, of the parity the loop visits. -/
theorem mltGo_mem (ci : ℕ) (rel : Bool) (vals : List ℤ) :
    ∀ fuel i cx cy pt, pt ∈ (mltGo ci rel vals fuel cx cy i).2 →
      pt.cmdIndex = ci ∧ i ≤ pt.valueIndex ∧ pt.valueIndex < vals.length ∧
        pt.valueIndex % 2 = i % 2 := by
  intro fuel
  induction fuel with
  | zero => intro i cx cy pt h; simp [mltGo] at h
  | succ fuel ih =>
    intro i cx cy pt h
    by_cases hi : i < vals.length
    · rw [mltGo_succ ci rel vals fuel cx cy i hi] at h
      rcases List.mem_cons.mp h with rfl | hmem
      · exact ⟨rfl, le_refl _, hi, rfl⟩
      · have hr := ih (i + 2) _ _ pt hmem
        exact ⟨hr.1, by omega, hr.2.2.1, by omega⟩
    · rw [mltGo_exit ci rel vals fuel cx cy i hi] at h
      simp at h

/-- Emitted `H` points carry the running command index and an in-range offset. -/
theorem hGo_mem (ci : ℕ) (rel : Bool) (vals : List ℤ) :
    ∀ fuel i cx cy pt, pt ∈ (hGo ci rel vals fuel cx cy i).2 →
      pt.cmdIndex = ci ∧ i ≤ pt.valueIndex ∧ pt.valueIndex < vals.length := by
  intro fuel
  induction fuel with
  | zero => intro i cx cy pt h; simp [hGo] at h
  | succ fuel ih =>
    intro i cx cy pt h
    by_cases hi : i < vals.length
    · rw [hGo_succ ci rel vals fuel cx cy i hi] at h
      rcases List.mem_cons.mp h with rfl | hmem
      · exact ⟨rfl, le_refl _, hi⟩
      · have hr := ih (i + 1) _ _ pt hmem
        exact ⟨hr.1, by omega, hr.2.2⟩
    · rw [hGo_exit ci rel vals fuel cx cy i hi] at h
      simp at h

/-- Emitted `V` points carry the running command index and an in-range offset. -/
theorem vGo_mem (ci : ℕ) (rel : Bool) (vals : List ℤ) :
    ∀ fuel i cx cy pt, pt ∈ (vGo ci rel vals fuel cx cy i).2 →
      pt.cmdIndex = ci ∧ i ≤ pt.valueIndex ∧ pt.valueIndex < vals.length := by
  intro fuel
  induction fuel with
  | zero => intro i cx cy pt h; simp [vGo] at h
  | succ fuel ih =>
    intro i cx cy pt h
    by_cases hi : i < vals.length
    · rw [vGo_succ ci rel vals fuel cx cy i hi] at h
      rcases List.mem_cons.mp h with rfl | hmem
      · exact ⟨rfl, le_refl _, hi⟩
      · have hr := ih (i + 1) _ _ pt hmem
        exact ⟨hr.1, by omega, hr.2.2⟩
    · rw [vGo_exit ci rel vals fuel cx cy i hi] at h
      simp at h

/-- Emitted `C`/`S`/`Q` points carry the running command index and an offset
inside the list, of the parity the loop visits. -/
theorem csqGo_mem (ci : ℕ) (rel : Bool) (vals : List ℤ) :
    ∀ fuel i cx cy pt, pt ∈ (csqGo ci rel vals fuel cx cy i).2 →
      pt.cmdIndex = ci ∧ i ≤ pt.valueIndex ∧ pt.valueIndex < vals.length ∧
        pt.valueIndex % 2 = i % 2 := by
  intro fuel
  induction fuel with
  | zero => intro i cx cy pt h; simp [csqGo] at h
  | succ fuel ih =>
    intro i cx cy pt h
    by_cases hi : i < vals.length
    · rw [csqGo_succ ci rel vals fuel cx cy i hi] at h
      rcases List.mem_cons.mp h with rfl | hmem
      · exact ⟨rfl, le_refl _, hi, rfl⟩
      · have hr := ih (i + 2) _ _ pt hmem
        exact ⟨hr.1, by omega, hr.2.2.1, by omega⟩
    · rw [csqGo_exit ci rel vals fuel cx cy i hi] at h
      simp at h

/-- Emitted `A` points sit five slots into a group whose start the loop visits
in strides of seven inside the list. -/
theorem aGo_mem (ci : ℕ) (rel : Bool) (vals : List ℤ) :
    ∀ fuel i cx cy pt, pt ∈ (aGo ci rel vals fuel cx cy i).2 →
      pt.cmdIndex = ci ∧ ∃ g, pt.valueIndex = g + 5 ∧ i ≤ g ∧ g < vals.length ∧
        g % 7 = i % 7 := by
  intro fuel
  induction fuel with
  | zero => intro i cx cy pt h; simp [aGo] at h
  | succ fuel ih =>
    intro i cx cy pt h
    by_cases hi : i < vals.length
    · rw [aGo_succ ci rel vals fuel cx cy i hi] at h
      rcases List.mem_cons.mp h with rfl | hmem
      · exact ⟨rfl, i, rfl, le_refl _, hi, rfl⟩
      · obtain ⟨h1, g, hg1, hg2, hg3, hg4⟩ := ih (i + 7) _ _ pt hmem
        exact ⟨h1, g, hg1, by omega, hg3, by omega⟩
    · rw [aGo_exit ci rel vals fuel cx cy i hi] at h
      simp at h

/-- Full characterization of the `C`/`S`/`Q` loop from any start index with
sufficient fuel: one point per 2-value group, every group resolved against the
current point at loop entry (interior groups never advance it), and the final
current point equal to the last emitted point (the entry point when no group
remains). -/
theorem csqGo_char (ci : ℕ) (rel : Bool) (vals : List ℤ) :
    ∀ fuel i cx cy, vals.length ≤ i + fuel →
      ((csqGo ci rel vals fuel cx cy i).2.length = (vals.length - i + 1) / 2
      ∧ (∀ j < (csqGo ci rel vals fuel cx cy i).2.length,
          (csqGo ci rel vals fuel cx cy i).2.getD j ⟨0, 0, 0, 0⟩ =
            ⟨(if rel then vals.getD (i + 2 * j) 0 + cx else vals.getD (i + 2 * j) 0),
             (if rel then vals.getD (i + 2 * j + 1) 0 + cy else vals.getD (i + 2 * j + 1) 0),
             ci, i + 2 * j⟩)
      ∧ (vals.length ≤ i → (csqGo ci rel vals fuel cx cy i).1 = (cx, cy))
      ∧ (i < vals.length →
          (csqGo ci rel vals fuel cx cy i).2 ≠ []
          ∧ (csqGo ci rel vals fuel cx cy i).1 =
              (((csqGo ci rel vals fuel cx cy i).2.getLast?.getD ⟨0, 0, 0, 0⟩).x,
               ((csqGo ci rel vals fuel cx cy i).2.getLast?.getD ⟨0, 0, 0, 0⟩).y))) := by
  intro fuel
  induction fuel with
  | zero =>
    intro i cx cy hk
    have h0 : csqGo ci rel vals 0 cx cy i = ((cx, cy), []) := rfl
    rw [h0]
    refine ⟨by show 0 = (vals.length - i + 1) / 2; omega,
      by intro j hj; simp at hj, fun _ => rfl, fun hlt => by omega⟩
  | succ fuel ih =>
    intro i cx cy hk
    by_cases hi : i < vals.length
    · by_cases hfin : i + 2 ≥ vals.length
      · have hrec : ∀ a b : ℤ, csqGo ci rel vals fuel a b (i + 2) = ((a, b), []) := by
          intro a b
          cases fuel with
          | zero => rfl
          | succ fuel => exact csqGo_exit ci rel vals fuel a b (i + 2) (by omega)
        rw [csqGo_succ ci rel vals fuel cx cy i hi, if_pos hfin, if_pos hfin, hrec]
        refine ⟨?_, ?_, ?_, ?_⟩
        · show ([(⟨_, _, ci, i⟩ : PathPoint)]).length = (vals.length - i + 1) / 2
          simp only [List.length_cons, List.length_nil]
          omega
        · intro j hj
          simp only [List.length_cons, List.length_nil] at hj
          have hj0 : j = 0 := by omega
          subst hj0
          simp only [List.getD_cons_zero]
          norm_num
        · intro hle; omega
        · intro _
          refine ⟨by simp, ?_⟩
          simp
      · have hrest := ih (i + 2) cx cy (by omega)
        have hi2 : i + 2 < vals.length := by omega
        rw [csqGo_succ ci rel vals fuel cx cy i hi, if_neg hfin, if_neg hfin]
        obtain ⟨hlen, hcont, _, hlast⟩ := hrest
        obtain ⟨hne, hcp⟩ := hlast hi2
        refine ⟨?_, ?_, ?_, ?_⟩
        · simp only [List.length_cons, hlen]
          omega
        · intro j hj
          cases j with
          | zero =>
            simp only [List.getD_cons_zero]
            norm_num
          | succ j' =>
            simp only [List.length_cons] at hj
            have hj' : j' < (csqGo ci rel vals fuel cx cy (i + 2)).2.length := by omega
            have hc := hcont j' hj'
            simp only [List.getD_cons_succ]
            rw [hc]
            have harith : i + 2 + 2 * j' = i + 2 * (j' + 1) := by ring
            rw [harith]
        · intro hle; omega
        · intro _
          refine ⟨by simp, ?_⟩
          obtain ⟨b, l', hbl⟩ := List.exists_cons_of_ne_nil hne
          rw [hbl]
          simp only [List.getLast?_cons_cons]
          rw [hbl] at hcp
          exact hcp
    · have h0 : csqGo ci rel vals (fuel + 1) cx cy i = ((cx, cy), []) :=
        csqGo_exit ci rel vals fuel cx cy i hi
      rw [h0]
      refine ⟨by show 0 = (vals.length - i + 1) / 2; omega,
        by intro j hj; simp at hj, fun _ => rfl, fun hlt => by omega⟩

/-- Dispatch of `stepCmd` for the `M`/`L`/`T` codes. -/
theorem stepCmd_mlt (cx cy : ℤ) (ci : ℕ) (cmd : PathCommand)
    (h : cmd.code.toUpper = 'M' ∨ cmd.code.toUpper = 'L' ∨ cmd.code.toUpper = 'T') :
    stepCmd cx cy ci cmd = mltLoop ci (cmd.code != cmd.code.toUpper) cmd.values cx cy := by
  rcases h with h | h | h <;> (unfold stepCmd; rw [h]; rfl)

/-- Dispatch of `stepCmd` for the `H` code. -/
theorem stepCmd_hcode (cx cy : ℤ) (ci : ℕ) (cmd : PathCommand)
    (h : cmd.code.toUpper = 'H') :
    stepCmd cx cy ci cmd = hLoop ci (cmd.code != cmd.code.toUpper) cmd.values cx cy := by
  unfold stepCmd; rw [h]; rfl

/-- Dispatch of `stepCmd` for the `V` code. -/
theorem stepCmd_vcode (cx cy : ℤ) (ci : ℕ) (cmd : PathCommand)
    (h : cmd.code.toUpper = 'V') :
    stepCmd cx cy ci cmd = vLoop ci (cmd.code != cmd.code.toUpper) cmd.values cx cy := by
  unfold stepCmd; rw [h]; rfl

/-- Dispatch of `stepCmd` for the `C`/`S`/`Q` codes. -/
theorem stepCmd_csq (cx cy : ℤ) (ci : ℕ) (cmd : PathCommand)
    (h : cmd.code.toUpper = 'C' ∨ cmd.code.toUpper = 'S' ∨ cmd.code.toUpper = 'Q') :
    stepCmd cx cy ci cmd = csqLoop ci (cmd.code != cmd.code.toUpper) cmd.values cx cy := by
  rcases h with h | h | h <;> (unfold stepCmd; rw [h]; rfl)

/-- Dispatch of `stepCmd` for the `A` code. -/
theorem stepCmd_acode (cx cy : ℤ) (ci : ℕ) (cmd : PathCommand)
    (h : cmd.code.toUpper = 'A') :
    stepCmd cx cy ci cmd = aLoop ci (cmd.code != cmd.code.toUpper) cmd.values cx cy := by
  unfold stepCmd; rw [h]; rfl

/-- Dispatch of `stepCmd` for `Z` and any unrecognised code: nothing happens. -/
theorem stepCmd_other (cx cy : ℤ) (ci : ℕ) (cmd : PathCommand)
    (h : cmd.code.toUpper ≠ 'M' ∧ cmd.code.toUpper ≠ 'L' ∧ cmd.code.toUpper ≠ 'T'
      ∧ cmd.code.toUpper ≠ 'H' ∧ cmd.code.toUpper ≠ 'V' ∧ cmd.code.toUpper ≠ 'C'
      ∧ cmd.code.toUpper ≠ 'S' ∧ cmd.code.toUpper ≠ 'Q' ∧ cmd.code.toUpper ≠ 'A') :
    stepCmd cx cy ci cmd = ((cx, cy), []) := by
  unfold stepCmd
  dsimp only
  split <;> simp_all

/-- Back-reference bounds of one emitted point, per owning command: the pieces
C9 talks about, phrased against `arity`/`lastAddr`. -/
theorem stepCmd_mem (cx cy : ℤ) (ci : ℕ) (cmd : PathCommand) (pt : PathPoint)
    (h : pt ∈ (stepCmd cx cy ci cmd).2) :
    pt.cmdIndex = ci
    ∧ (cmd.code.toUpper ≠ 'A' → pt.valueIndex < cmd.values.length)
    ∧ (cmd.values.length % arity cmd.code.toUpper = 0 →
        lastAddr cmd.code.toUpper pt.valueIndex < cmd.values.length) := by
  by_cases hM : cmd.code.toUpper = 'M' ∨ cmd.code.toUpper = 'L' ∨ cmd.code.toUpper = 'T'
  · rw [stepCmd_mlt cx cy ci cmd hM] at h
    have hm := mltGo_mem ci (cmd.code != cmd.code.toUpper) cmd.values
      cmd.values.length 0 cx cy pt h
    have ha : arity cmd.code.toUpper = 2 := by
      rcases hM with h1 | h1 | h1 <;> rw [h1] <;> decide
    have hl : lastAddr cmd.code.toUpper pt.valueIndex = pt.valueIndex + 1 := by
      rcases hM with h1 | h1 | h1 <;> (rw [h1, lastAddr, if_neg (by decide)])
    refine ⟨hm.1, fun _ => hm.2.2.1, fun hmod => ?_⟩
    rw [ha] at hmod
    rw [hl]
    have h1 := hm.2.2.1
    have h2 := hm.2.2.2
    omega
  · by_cases hC : cmd.code.toUpper = 'C' ∨ cmd.code.toUpper = 'S' ∨ cmd.code.toUpper = 'Q'
    · rw [stepCmd_csq cx cy ci cmd hC] at h
      have hm := csqGo_mem ci (cmd.code != cmd.code.toUpper) cmd.values
        cmd.values.length 0 cx cy pt h
      have ha : arity cmd.code.toUpper = 2 := by
        rcases hC with h1 | h1 | h1 <;> rw [h1] <;> decide
      have hl : lastAddr cmd.code.toUpper pt.valueIndex = pt.valueIndex + 1 := by
        rcases hC with h1 | h1 | h1 <;> (rw [h1, lastAddr, if_neg (by decide)])
      refine ⟨hm.1, fun _ => hm.2.2.1, fun hmod => ?_⟩
      rw [ha] at hmod
      rw [hl]
      have h1 := hm.2.2.1
      have h2 := hm.2.2.2
      omega
    · by_cases hH : cmd.code.toUpper = 'H'
      · rw [stepCmd_hcode cx cy ci cmd hH] at h
        have hm := hGo_mem ci (cmd.code != cmd.code.toUpper) cmd.values
          cmd.values.length 0 cx cy pt h
        have hl : lastAddr cmd.code.toUpper pt.valueIndex = pt.valueIndex := by
          rw [hH, lastAddr, if_pos (by decide)]
        exact ⟨hm.1, fun _ => hm.2.2, fun _ => by rw [hl]; exact hm.2.2⟩
      · by_cases hV : cmd.code.toUpper = 'V'
        · rw [stepCmd_vcode cx cy ci cmd hV] at h
          have hm := vGo_mem ci (cmd.code != cmd.code.toUpper) cmd.values
            cmd.values.length 0 cx cy pt h
          have hl : lastAddr cmd.code.toUpper pt.valueIndex = pt.valueIndex := by
            rw [hV, lastAddr, if_pos (by decide)]
          exact ⟨hm.1, fun _ => hm.2.2, fun _ => by rw [hl]; exact hm.2.2⟩
        · by_cases hA : cmd.code.toUpper = 'A'
          · rw [stepCmd_acode cx cy ci cmd hA] at h
            have hm := aGo_mem ci (cmd.code != cmd.code.toUpper) cmd.values
              cmd.values.length 0 cx cy pt h
            obtain ⟨h1, g, hg1, hg2, hg3, hg4⟩ := hm
            have ha : arity cmd.code.toUpper = 7 := by rw [hA]; decide
            have hl : lastAddr cmd.code.toUpper pt.valueIndex = pt.valueIndex + 1 := by
              rw [hA, lastAddr, if_neg (by decide)]
            refine ⟨h1, fun hne => absurd hA hne, fun hmod => ?_⟩
            rw [ha] at hmod
            rw [hl]
            omega
          · rw [stepCmd_other cx cy ci cmd (by tauto)] at h
            simp at h

/-- Accumulated form of the resolver walk: every emitted point names the
command the walk was visiting, and its offsets obey that command's bounds. -/
theorem runCmds_mem :
    ∀ (cmds : List PathCommand) (cx cy : ℤ) (ci : ℕ) (pt : PathPoint),
      pt ∈ runCmds cx cy ci cmds →
      ∃ n, n < cmds.length ∧ pt.cmdIndex = ci + n
        ∧ ((cmds.getD n ⟨'Z', []⟩).code.toUpper ≠ 'A' →
            pt.valueIndex < (cmds.getD n ⟨'Z', []⟩).values.length)
        ∧ ((cmds.getD n ⟨'Z', []⟩).values.length %
              arity (cmds.getD n ⟨'Z', []⟩).code.toUpper = 0 →
            lastAddr (cmds.getD n ⟨'Z', []⟩).code.toUpper pt.valueIndex
              < (cmds.getD n ⟨'Z', []⟩).values.length) := by
  intro cmds
  induction cmds with
  | nil => intro cx cy ci pt h; simp [runCmds] at h
  | cons c rest ih =>
    intro cx cy ci pt h
    have hrw : runCmds cx cy ci (c :: rest) =
        (stepCmd cx cy ci c).2 ++
          runCmds (stepCmd cx cy ci c).1.1 (stepCmd cx cy ci c).1.2 (ci + 1) rest := rfl
    rw [hrw] at h
    rcases List.mem_append.mp h with h1 | h1
    · obtain ⟨hci, hb1, hb2⟩ := stepCmd_mem cx cy ci c pt h1
      refine ⟨0, by simp, by omega, ?_, ?_⟩
      · rw [List.getD_cons_zero]
        exact hb1
      · rw [List.getD_cons_zero]
        exact hb2
    · obtain ⟨n, hn1, hn2, hn3, hn4⟩ := ih _ _ (ci + 1) pt h1
      refine ⟨n + 1, by simp only [List.length_cons]; omega, by omega, ?_, ?_⟩
      · rw [List.getD_cons_succ]
        exact hn3
      · rw [List.getD_cons_succ]
        exact hn4

/-! Auxiliary lemmas: JS array writes. -/

/-- Reading back the written slot of a `List.set`. -/
theorem getD_set_self {α : Type} (l : List α) (i : ℕ) (v d : α) (h : i < l.length) :
    (l.set i v).getD i d = v := by
  rw [List.getD_eq_getElem _ _ (by simpa using h)]
  simp

/-- A `List.set` leaves every other slot (and out-of-range reads) unchanged. -/
theorem getD_set_ne {α : Type} (l : List α) (i j : ℕ) (v d : α) (h : j ≠ i) :
    (l.set i v).getD j d = l.getD j d := by
  by_cases hj : j < l.length
  · rw [List.getD_eq_getElem _ _ (by simpa using hj), List.getD_eq_getElem _ _ hj]
    exact List.getElem_set_ne (Ne.symm h) _
  · rw [List.getD_eq_default _ _ (by simpa using Nat.le_of_not_lt hj),
      List.getD_eq_default _ _ (Nat.le_of_not_lt hj)]

/-- Reading the slot a `jsSet` wrote gives the written value, in range or not. -/
theorem jsSet_getD_self (l : List ℤ) (i : ℕ) (v : ℤ) : (jsSet l i v).getD i 0 = v := by
  unfold jsSet
  split
  · next h => exact getD_set_self l i v 0 h
  · next h =>
    rw [List.append_assoc, List.getD_append_right _ _ _ _ (by omega)]
    have hlen2 : (List.replicate (i - l.length) (0 : ℤ)).length ≤ i - l.length := by
      simp
    rw [List.getD_append_right _ _ _ _ hlen2]
    simp

/-- A `jsSet` leaves every other read unchanged (pad slots read as the
`undefined` sentinel, which is what an out-of-range read of the original array
gives as well). -/
theorem jsSet_getD_ne (l : List ℤ) (i j : ℕ) (v : ℤ) (h : j ≠ i) :
    (jsSet l i v).getD j 0 = l.getD j 0 := by
  unfold jsSet
  split
  · next hlen => exact getD_set_ne l i j v 0 h
  · next hlen =>
    rw [List.append_assoc]
    by_cases hj : j < l.length
    · rw [List.getD_append _ _ _ _ hj]
    · rw [List.getD_eq_default l 0 (by omega)]
      rw [List.getD_append_right _ _ _ _ (by omega)]
      by_cases hji : j < i
      · rw [List.getD_append _ _ _ _ (by simp; omega)]
        simp
      · rw [List.getD_append_right _ _ _ _ (by simp; omega)]
        rw [List.getD_eq_default]
        simp
        omega

/-- Length of a `jsSet`: unchanged in range, extended to `i + 1` past the end. -/
theorem jsSet_length (l : List ℤ) (i : ℕ) (v : ℤ) :
    (jsSet l i v).length = max l.length (i + 1) := by
  unfold jsSet
  split
  · next h => rw [List.length_set]; omega
  · next h => simp [List.length_append, List.length_replicate]; omega

/-! Auxiliary lemmas: the splice of `handleInsert`. -/

/-- A splice-insert at a position inside the list grows it by one. -/
theorem spliceInsert_length (l : List PathCommand) (n : ℕ) (c : PathCommand)
    (h : n ≤ l.length) : (spliceInsert l n c).length = l.length + 1 := by
  unfold spliceInsert
  simp
  omega

/-- The spliced command sits at the insertion position. -/
theorem spliceInsert_getD_self (l : List PathCommand) (n : ℕ) (c d : PathCommand)
    (h : n ≤ l.length) : (spliceInsert l n c).getD n d = c := by
  unfold spliceInsert
  rw [List.getD_append_right _ _ _ _ (by simp)]
  have hlen : (l.take n).length = n := by simp; omega
  rw [hlen]
  simp

/-- Slots before the insertion position are untouched. -/
theorem spliceInsert_getD_lt (l : List PathCommand) (n : ℕ) (c d : PathCommand)
    (j : ℕ) (hj : j < n) (h : n ≤ l.length) :
    (spliceInsert l n c).getD j d = l.getD j d := by
  unfold spliceInsert
  rw [List.getD_append _ _ _ _ (by simp; omega)]
  rw [List.getD_eq_getElem _ _ (by simp; omega), List.getD_eq_getElem _ _ (by omega)]
  simp

/-- Slots at or after the insertion position shift one to the right. -/
theorem spliceInsert_getD_ge (l : List PathCommand) (n : ℕ) (c d : PathCommand)
    (j : ℕ) (hj : n ≤ j) (hlen : j < l.length) :
    (spliceInsert l n c).getD (j + 1) d = l.getD j d := by
  unfold spliceInsert
  rw [List.getD_append_right _ _ _ _ (by simp; omega)]
  have htk : (l.take n).length = n := by simp; omega
  rw [htk]
  have hsub : j + 1 - n = (j - n) + 1 := by omega
  rw [hsub, List.getD_cons_succ]
  rw [List.getD_eq_getElem _ _ (by simp; omega), List.getD_eq_getElem _ _ hlen]
  rw [← List.getElem_drop' l (by omega : n + (j - n) < l.length)]
  congr 1
  omega

/-! Auxiliary lemmas: snapshots and history. -/

/-- Cloning a command list field by field is the identity in value semantics. -/
theorem cloneCmds_eq (cs : List PathCommand) :
    (cs.map fun c => (⟨c.code, c.values⟩ : PathCommand)) = cs := by
  induction cs with
  | nil => rfl
  | cons c rest ih => rw [List.map_cons, ih]

/-- The deep copy `snapshot` builds is equal (as a value) to its source, which
is exactly the structural independence the source wants from it. -/
theorem snapshot_eq (l : List Shape) : snapshot l = l := by
  unfold snapshot
  induction l with
  | nil => rfl
  | cons s rest ih =>
    rw [List.map_cons, ih]
    congr 1
    cases s with
    | rect i x y w h f k => rfl
    | circle i cx cy r f k => rfl
    | path i cs d f k =>
      show Shape.path i (cs.map fun c => (⟨c.code, c.values⟩ : PathCommand)) d f k =
        Shape.path i cs d f k
      rw [cloneCmds_eq]

/-- Every recorded action pushes exactly the pre-state onto history and clears
the redo stack. -/
theorem applyMut_records (st : EditorState) (m : MutAction)
    (h : recordsOkB st m = true) :
    (applyMut st m).history = st.history ++ [st.shapes]
      ∧ (applyMut st m).future = [] := by
  cases m with
  | draw x y =>
    refine ⟨?_, rfl⟩
    show (onMouseDown st x y).history = _
    simp [onMouseDown, snapshot_eq]
  | shapeDown sh x y =>
    cases sh <;> exact ⟨by simp [applyMut, onShapeMouseDown, snapshot_eq], rfl⟩
  | pointDown sid pt x y =>
    exact ⟨by simp [applyMut, onPointMouseDown, snapshot_eq], rfl⟩
  | setFill v =>
    have hsel : (selShape st).isSome = true := by simpa [recordsOkB] using h
    obtain ⟨sh, hsh⟩ := Option.isSome_iff_exists.mp hsel
    show (setFillColor st v).history = _ ∧ (setFillColor st v).future = []
    unfold setFillColor
    rw [hsh]
    exact ⟨by simp [snapshot_eq], rfl⟩
  | setStroke v =>
    have hsel : (selShape st).isSome = true := by simpa [recordsOkB] using h
    obtain ⟨sh, hsh⟩ := Option.isSome_iff_exists.mp hsel
    show (setStrokeColor st v).history = _ ∧ (setStrokeColor st v).future = []
    unfold setStrokeColor
    rw [hsh]
    exact ⟨by simp [snapshot_eq], rfl⟩
  | clearAct =>
    have hne : st.shapes.isEmpty = false := by
      have h2 : (!st.shapes.isEmpty) = true := by simpa [recordsOkB] using h
      simpa using h2
    show (clear st).history = _ ∧ (clear st).future = []
    unfold clear
    rw [if_neg (by simp [hne])]
    exact ⟨by simp [snapshot_eq], rfl⟩

/-- Undoing a state whose history ends in a snapshot restores that snapshot,
drops it from history, and pushes the live shapes onto future. -/
theorem undo_push (st : EditorState) (s : List Shape) (pre : List (List Shape))
    (h : st.history = pre ++ [s]) :
    undo st = { st with
      shapes := s
      history := pre
      future := snapshot st.shapes :: st.future } := by
  have h1 : undo st = { st with
      shapes := s
      history := (pre ++ [s]).dropLast
      future := snapshot st.shapes :: st.future } := by
    unfold undo
    rw [h, List.getLast?_concat]
  rw [h1, List.dropLast_concat]

/-- Undo is the identity on an empty history. -/
theorem undo_empty (st : EditorState) (h : st.history = []) : undo st = st := by
  unfold undo
  rw [h]
  rfl

/-- Redoing a state with a pending future pops its head. -/
theorem redo_pop (st : EditorState) (nx : List Shape) (rest : List (List Shape))
    (h : st.future = nx :: rest) :
    redo st = { st with
      shapes := nx
      future := rest
      history := st.history ++ [snapshot st.shapes] } := by
  unfold redo
  rw [h]

/-- Redo is the identity on an empty future. -/
theorem redo_empty (st : EditorState) (h : st.future = []) : redo st = st := by
  unfold redo
  rw [h]

/-! Claim theorems. -/

/-- C3: serializing a command sequence with `commandsToString` and re-parsing
the result with `parsePath` yields a command sequence that `getPathPoints`
resolves to the same ordered list of absolute points as the original — in this
integer embedding the round trip is even exact, so the points agree without any
tolerance. The codes are letters, as is true of every command the editor parses
or creates. -/
theorem c3_serialize_reparse (cmds : List PathCommand)
    (h : ∀ c ∈ cmds, c.code.isAlpha = true) :
    parsePath (commandsToString cmds) = cmds
    ∧ getPathPoints (parsePath (commandsToString cmds)) = getPathPoints cmds := by
  have hp : parsePath (commandsToString cmds) = cmds := parseChars_serCmds cmds h
  exact ⟨hp, by rw [hp]⟩

/-- Witness for C3 at a concrete mixed absolute/relative sequence. -/
theorem c3_serialize_reparse_witness :
    getPathPoints (parsePath (commandsToString
        [⟨'M', [10, 10]⟩, ⟨'l', [-5, 3]⟩, ⟨'Z', []⟩]))
      = getPathPoints [⟨'M', [10, 10]⟩, ⟨'l', [-5, 3]⟩, ⟨'Z', []⟩] :=
  (c3_serialize_reparse [⟨'M', [10, 10]⟩, ⟨'l', [-5, 3]⟩, ⟨'Z', []⟩] (by decide)).2

/-- Bridge between the loop wrapper and its fuel engine. -/
theorem csqLoop_eq_go (ci : ℕ) (rel : Bool) (vals : List ℤ) (cx cy : ℤ) :
    csqLoop ci rel vals cx cy = csqGo ci rel vals vals.length cx cy 0 := rfl

/-- C7: the resolver walks the commands left to right starting from current
point (0,0) (last conjunct); for `C`/`S`/`Q` every 2-value parameter group —
interior control points included — is emitted as an addressable PathPoint,
each group resolved against the current point at the command's entry, and only
the group holding the command's final coordinate pair moves the running current
point, which afterwards equals the last emitted point (first conjunct; an empty
parameter list leaves it untouched); `Z` emits no point and leaves the current
point unchanged (middle conjunct). The resolver is a pure function of the
command list, so it cannot mutate it. -/
theorem c7_resolver_curves (cmd : PathCommand) (cx cy : ℤ) (ci : ℕ)
    (hc : cmd.code.toUpper = 'C' ∨ cmd.code.toUpper = 'S' ∨ cmd.code.toUpper = 'Q') :
    ((stepCmd cx cy ci cmd).2.length = (cmd.values.length + 1) / 2
    ∧ (∀ j < (stepCmd cx cy ci cmd).2.length,
        (stepCmd cx cy ci cmd).2.getD j ⟨0, 0, 0, 0⟩ =
          ⟨(if cmd.code != cmd.code.toUpper then cmd.values.getD (2 * j) 0 + cx
            else cmd.values.getD (2 * j) 0),
           (if cmd.code != cmd.code.toUpper then cmd.values.getD (2 * j + 1) 0 + cy
            else cmd.values.getD (2 * j + 1) 0), ci, 2 * j⟩)
    ∧ (cmd.values = [] → (stepCmd cx cy ci cmd).1 = (cx, cy))
    ∧ (cmd.values ≠ [] →
        (stepCmd cx cy ci cmd).2 ≠ []
        ∧ (stepCmd cx cy ci cmd).1 =
            (((stepCmd cx cy ci cmd).2.getLast?.getD ⟨0, 0, 0, 0⟩).x,
             ((stepCmd cx cy ci cmd).2.getLast?.getD ⟨0, 0, 0, 0⟩).y)))
    ∧ (∀ (zc : PathCommand) (dx dy : ℤ) (di : ℕ), zc.code.toUpper = 'Z' →
        stepCmd dx dy di zc = ((dx, dy), []))
    ∧ (∀ cmds : List PathCommand, getPathPoints cmds = runCmds 0 0 0 cmds) := by
  refine ⟨?_, ?_, fun cmds => rfl⟩
  · rw [stepCmd_csq cx cy ci cmd hc, csqLoop_eq_go]
    obtain ⟨h1, h2, h3, h4⟩ := csqGo_char ci (cmd.code != cmd.code.toUpper)
      cmd.values cmd.values.length 0 cx cy (by omega)
    refine ⟨?_, ?_, ?_, ?_⟩
    · simpa using h1
    · intro j hj
      have := h2 j hj
      simpa using this
    · intro hnil
      exact h3 (by rw [hnil]; rfl)
    · intro hnil
      exact h4 (List.length_pos.mpr hnil)
  · intro zc dx dy di hz
    refine stepCmd_other dx dy di zc ?_
    rw [hz]
    refine ⟨by decide, by decide, by decide, by decide, by decide, by decide,
      by decide, by decide, by decide⟩

/-- Witness for C7 at a concrete relative `c` command with an interior control
point. -/
theorem c7_resolver_curves_witness :
    ((stepCmd 1 2 0 ⟨'c', [10, 20, 30, 40]⟩).2.length
        = (([10, 20, 30, 40] : List ℤ).length + 1) / 2)
    ∧ (stepCmd 1 2 0 ⟨'c', [10, 20, 30, 40]⟩).1 =
        (((stepCmd 1 2 0 ⟨'c', [10, 20, 30, 40]⟩).2.getLast?.getD ⟨0, 0, 0, 0⟩).x,
         ((stepCmd 1 2 0 ⟨'c', [10, 20, 30, 40]⟩).2.getLast?.getD ⟨0, 0, 0, 0⟩).y) :=
  ⟨(c7_resolver_curves ⟨'c', [10, 20, 30, 40]⟩ 1 2 0 (by decide)).1.1,
   ((c7_resolver_curves ⟨'c', [10, 20, 30, 40]⟩ 1 2 0 (by decide)).1.2.2.2
      (by decide)).2⟩

/-- C9 (amended): every PathPoint emitted by `getPathPoints` carries an
in-bounds command index; for every code except `A` the valueIndex is strictly
below the owning command's parameter count; and whenever the parameter count is
a multiple of the code's group arity, the last value index the point addresses
(`lastAddr`) is also strictly below it. (For a malformed `A` group — fewer than
7 parameters — the emitted valueIndex of group-start + 5 can exceed the list,
so the unconditional in-bounds claim fails; see the counterexample.) -/
theorem c9_amended (cmds : List PathCommand) (pt : PathPoint)
    (h : pt ∈ getPathPoints cmds) :
    pt.cmdIndex < cmds.length
    ∧ ((cmds.getD pt.cmdIndex ⟨'Z', []⟩).code.toUpper ≠ 'A' →
        pt.valueIndex < (cmds.getD pt.cmdIndex ⟨'Z', []⟩).values.length)
    ∧ ((cmds.getD pt.cmdIndex ⟨'Z', []⟩).values.length %
          arity (cmds.getD pt.cmdIndex ⟨'Z', []⟩).code.toUpper = 0 →
        lastAddr (cmds.getD pt.cmdIndex ⟨'Z', []⟩).code.toUpper pt.valueIndex
          < (cmds.getD pt.cmdIndex ⟨'Z', []⟩).values.length) := by
  obtain ⟨n, hn1, hn2, hn3, hn4⟩ := runCmds_mem cmds 0 0 0 pt h
  have hpt : pt.cmdIndex = n := by omega
  rw [hpt]
  exact ⟨hn1, hn3, hn4⟩

/-- Witness for C9 at a well-formed one-command path. -/
theorem c9_amended_witness :
    (⟨10, 10, 0, 0⟩ : PathPoint) ∈ getPathPoints [⟨'M', [10, 10]⟩]
    ∧ (⟨10, 10, 0, 0⟩ : PathPoint).cmdIndex
        < ([⟨'M', [10, 10]⟩] : List PathCommand).length :=
  ⟨by decide, (c9_amended [⟨'M', [10, 10]⟩] ⟨10, 10, 0, 0⟩ (by decide)).1⟩

/-- C9 counterexample: an `A` command with a single parameter emits exactly one
point, and its valueIndex 5 is not strictly below the parameter-list length 1,
so the claim's unconditional in-bounds property is false on the code. -/
theorem c9_counterexample :
    (getPathPoints [⟨'A', [1]⟩]).length = 1
    ∧ ((getPathPoints [⟨'A', [1]⟩]).getD 0 ⟨0, 0, 0, 0⟩).cmdIndex = 0
    ∧ ((getPathPoints [⟨'A', [1]⟩]).getD 0 ⟨0, 0, 0, 0⟩).valueIndex = 5
    ∧ ¬ ((getPathPoints [⟨'A', [1]⟩]).getD 0 ⟨0, 0, 0, 0⟩).valueIndex
        < (⟨'A', [1]⟩ : PathCommand).values.length := by decide

/-- Dispatch of `movePathPoint` for the pair-writing codes (`M`, `L`, `T`,
`C`, `S`, `Q`, and `A`, which writes its trailing pair the same way). -/
theorem movePathPoint_pair (cmds : List PathCommand) (pt : PathPoint) (nx ny : ℤ)
    (h : (cmds.getD pt.cmdIndex ⟨'Z', []⟩).code.toUpper = 'M'
      ∨ (cmds.getD pt.cmdIndex ⟨'Z', []⟩).code.toUpper = 'L'
      ∨ (cmds.getD pt.cmdIndex ⟨'Z', []⟩).code.toUpper = 'T'
      ∨ (cmds.getD pt.cmdIndex ⟨'Z', []⟩).code.toUpper = 'C'
      ∨ (cmds.getD pt.cmdIndex ⟨'Z', []⟩).code.toUpper = 'S'
      ∨ (cmds.getD pt.cmdIndex ⟨'Z', []⟩).code.toUpper = 'Q'
      ∨ (cmds.getD pt.cmdIndex ⟨'Z', []⟩).code.toUpper = 'A') :
    movePathPoint cmds pt nx ny = cmds.set pt.cmdIndex
      ⟨(cmds.getD pt.cmdIndex ⟨'Z', []⟩).code.toUpper,
        jsSet (jsSet (cmds.getD pt.cmdIndex ⟨'Z', []⟩).values pt.valueIndex nx)
          (pt.valueIndex + 1) ny⟩ := by
  rcases h with h | h | h | h | h | h | h <;>
    (simp only [movePathPoint]; rw [h]; rfl)

/-- Dispatch of `movePathPoint` for `H`: only x is written. -/
theorem movePathPoint_hcode (cmds : List PathCommand) (pt : PathPoint) (nx ny : ℤ)
    (h : (cmds.getD pt.cmdIndex ⟨'Z', []⟩).code.toUpper = 'H') :
    movePathPoint cmds pt nx ny = cmds.set pt.cmdIndex
      ⟨'H', jsSet (cmds.getD pt.cmdIndex ⟨'Z', []⟩).values pt.valueIndex nx⟩ := by
  simp only [movePathPoint]
  rw [h]
  rfl

/-- Dispatch of `movePathPoint` for `V`: only y is written. -/
theorem movePathPoint_vcode (cmds : List PathCommand) (pt : PathPoint) (nx ny : ℤ)
    (h : (cmds.getD pt.cmdIndex ⟨'Z', []⟩).code.toUpper = 'V') :
    movePathPoint cmds pt nx ny = cmds.set pt.cmdIndex
      ⟨'V', jsSet (cmds.getD pt.cmdIndex ⟨'Z', []⟩).values pt.valueIndex ny⟩ := by
  simp only [movePathPoint]
  rw [h]
  rfl

/-- C4: moving a resolved point whose owning command is relative (lowercase
code) switches that command's code to uppercase and rewrites only the targeted
values — `H` only x at the offset, `V` only y, the pair codes (and `A`, whose
emitted point carries the offset of its trailing pair, leaving radii, rotation
and flags at lower offsets untouched) the (x,y) pair at the offset — while
every other parameter value of that command and every other command stay
unchanged and the command count is preserved. -/
theorem c4_move_point (cmds : List PathCommand) (pt : PathPoint) (nx ny : ℤ)
    (hidx : pt.cmdIndex < cmds.length)
    (hrel : (cmds.getD pt.cmdIndex ⟨'Z', []⟩).code ≠
      (cmds.getD pt.cmdIndex ⟨'Z', []⟩).code.toUpper)
    (hcode : (cmds.getD pt.cmdIndex ⟨'Z', []⟩).code.toUpper ∈
      (['M', 'L', 'T', 'H', 'V', 'C', 'S', 'Q', 'A'] : List Char)) :
    (movePathPoint cmds pt nx ny).length = cmds.length
    ∧ (∀ k, k ≠ pt.cmdIndex →
        (movePathPoint cmds pt nx ny).getD k ⟨'Z', []⟩ = cmds.getD k ⟨'Z', []⟩)
    ∧ ((movePathPoint cmds pt nx ny).getD pt.cmdIndex ⟨'Z', []⟩).code =
        (cmds.getD pt.cmdIndex ⟨'Z', []⟩).code.toUpper
    ∧ ((cmds.getD pt.cmdIndex ⟨'Z', []⟩).code.toUpper = 'H' →
        ((movePathPoint cmds pt nx ny).getD pt.cmdIndex ⟨'Z', []⟩).values.getD
            pt.valueIndex 0 = nx
        ∧ ∀ j, j ≠ pt.valueIndex →
            ((movePathPoint cmds pt nx ny).getD pt.cmdIndex ⟨'Z', []⟩).values.getD j 0 =
              (cmds.getD pt.cmdIndex ⟨'Z', []⟩).values.getD j 0)
    ∧ ((cmds.getD pt.cmdIndex ⟨'Z', []⟩).code.toUpper = 'V' →
        ((movePathPoint cmds pt nx ny).getD pt.cmdIndex ⟨'Z', []⟩).values.getD
            pt.valueIndex 0 = ny
        ∧ ∀ j, j ≠ pt.valueIndex →
            ((movePathPoint cmds pt nx ny).getD pt.cmdIndex ⟨'Z', []⟩).values.getD j 0 =
              (cmds.getD pt.cmdIndex ⟨'Z', []⟩).values.getD j 0)
    ∧ ((cmds.getD pt.cmdIndex ⟨'Z', []⟩).code.toUpper ∈
          (['M', 'L', 'T', 'C', 'S', 'Q', 'A'] : List Char) →
        ((movePathPoint cmds pt nx ny).getD pt.cmdIndex ⟨'Z', []⟩).values.getD
            pt.valueIndex 0 = nx
        ∧ ((movePathPoint cmds pt nx ny).getD pt.cmdIndex ⟨'Z', []⟩).values.getD
            (pt.valueIndex + 1) 0 = ny
        ∧ ∀ j, j ≠ pt.valueIndex → j ≠ pt.valueIndex + 1 →
            ((movePathPoint cmds pt nx ny).getD pt.cmdIndex ⟨'Z', []⟩).values.getD j 0 =
              (cmds.getD pt.cmdIndex ⟨'Z', []⟩).values.getD j 0) := by
  by_cases hH : (cmds.getD pt.cmdIndex ⟨'Z', []⟩).code.toUpper = 'H'
  · rw [movePathPoint_hcode cmds pt nx ny hH]
    refine ⟨by rw [List.length_set], fun k hk => getD_set_ne cmds pt.cmdIndex k _ _ hk,
      ?_, ?_, ?_, ?_⟩
    · rw [getD_set_self cmds pt.cmdIndex _ ⟨'Z', []⟩ hidx]
      exact hH.symm
    · intro _
      rw [getD_set_self cmds pt.cmdIndex _ ⟨'Z', []⟩ hidx]
      exact ⟨jsSet_getD_self _ _ _, fun j hj => jsSet_getD_ne _ _ _ _ hj⟩
    · intro hV
      exact absurd (hH.symm.trans hV) (by decide)
    · intro hmem
      rw [hH] at hmem
      exact absurd hmem (by decide)
  · by_cases hV : (cmds.getD pt.cmdIndex ⟨'Z', []⟩).code.toUpper = 'V'
    · rw [movePathPoint_vcode cmds pt nx ny hV]
      refine ⟨by rw [List.length_set], fun k hk => getD_set_ne cmds pt.cmdIndex k _ _ hk,
        ?_, ?_, ?_, ?_⟩
      · rw [getD_set_self cmds pt.cmdIndex _ ⟨'Z', []⟩ hidx]
        exact hV.symm
      · intro hH'
        exact absurd hH' hH
      · intro _
        rw [getD_set_self cmds pt.cmdIndex _ ⟨'Z', []⟩ hidx]
        exact ⟨jsSet_getD_self _ _ _, fun j hj => jsSet_getD_ne _ _ _ _ hj⟩
      · intro hmem
        rw [hV] at hmem
        exact absurd hmem (by decide)
    · have hpair : (cmds.getD pt.cmdIndex ⟨'Z', []⟩).code.toUpper = 'M'
          ∨ (cmds.getD pt.cmdIndex ⟨'Z', []⟩).code.toUpper = 'L'
          ∨ (cmds.getD pt.cmdIndex ⟨'Z', []⟩).code.toUpper = 'T'
          ∨ (cmds.getD pt.cmdIndex ⟨'Z', []⟩).code.toUpper = 'C'
          ∨ (cmds.getD pt.cmdIndex ⟨'Z', []⟩).code.toUpper = 'S'
          ∨ (cmds.getD pt.cmdIndex ⟨'Z', []⟩).code.toUpper = 'Q'
          ∨ (cmds.getD pt.cmdIndex ⟨'Z', []⟩).code.toUpper = 'A' := by
        simp only [List.mem_cons, List.not_mem_nil, or_false] at hcode
        tauto
      rw [movePathPoint_pair cmds pt nx ny hpair]
      refine ⟨by rw [List.length_set], fun k hk => getD_set_ne cmds pt.cmdIndex k _ _ hk,
        ?_, ?_, ?_, ?_⟩
      · rw [getD_set_self cmds pt.cmdIndex _ ⟨'Z', []⟩ hidx]
      · intro hH'
        exact absurd hH' hH
      · intro hV'
        exact absurd hV' hV
      · intro _
        rw [getD_set_self cmds pt.cmdIndex _ ⟨'Z', []⟩ hidx]
        refine ⟨?_, jsSet_getD_self _ _ _, ?_⟩
        · rw [jsSet_getD_ne _ _ _ _ (by omega)]
          exact jsSet_getD_self _ _ _
        · intro j hj1 hj2
          rw [jsSet_getD_ne _ _ _ _ hj2, jsSet_getD_ne _ _ _ _ hj1]

/-- Witness for C4: a relative `l` command is uppercased and only its pair is
rewritten. -/
theorem c4_move_point_witness :
    (0 : ℕ) < ([⟨'l', [5, 5]⟩] : List PathCommand).length
    ∧ (movePathPoint [⟨'l', [5, 5]⟩] ⟨5, 5, 0, 0⟩ 50 60).length
        = ([⟨'l', [5, 5]⟩] : List PathCommand).length :=
  ⟨by decide,
   (c4_move_point [⟨'l', [5, 5]⟩] ⟨5, 5, 0, 0⟩ 50 60 (by decide) (by decide)
      (by decide)).1⟩

/-- C2 (amended): with a selected point and shape, Insert maps over the shape
list: non-path shapes and paths with a different id are untouched; the selected
path gets one new command — seeded with the selected point's coordinates as
`[x, y]` regardless of the requested code (the code-appropriate-arity rule of
the claim belongs to Convert, see the counterexample) — spliced immediately
after the command owning the point, every existing command kept (those after
the owner shifted one slot), and the cached text regenerated. -/
theorem c2_insert_amended (st : EditorState) (code : Char) (pt : PathPoint)
    (sid : ℕ) (hsp : st.selectedPoint = some pt) (hsid : st.selectedId = some sid) :
    (handleInsert st code).shapes = st.shapes.map (insertIntoShape sid pt code)
    ∧ (∀ (i : ℕ) (cs : List PathCommand) (d f k : String), i ≠ sid →
        insertIntoShape sid pt code (Shape.path i cs d f k) = Shape.path i cs d f k)
    ∧ (∀ (i : ℕ) (x y w h : ℤ) (f k : String),
        insertIntoShape sid pt code (Shape.rect i x y w h f k) = Shape.rect i x y w h f k)
    ∧ (∀ (i : ℕ) (cx cy r : ℤ) (f k : String),
        insertIntoShape sid pt code (Shape.circle i cx cy r f k) = Shape.circle i cx cy r f k)
    ∧ (∀ (cs : List PathCommand) (d f k : String), pt.cmdIndex < cs.length →
        ∃ cs', insertIntoShape sid pt code (Shape.path sid cs d f k)
            = Shape.path sid cs' (commandsToString cs') f k
          ∧ cs'.length = cs.length + 1
          ∧ cs'.getD (pt.cmdIndex + 1) ⟨'Z', []⟩ = ⟨code, [pt.x, pt.y]⟩
          ∧ (∀ j, j ≤ pt.cmdIndex → cs'.getD j ⟨'Z', []⟩ = cs.getD j ⟨'Z', []⟩)
          ∧ (∀ j, pt.cmdIndex < j → j < cs.length →
              cs'.getD (j + 1) ⟨'Z', []⟩ = cs.getD j ⟨'Z', []⟩)) := by
  refine ⟨?_, ?_, fun i x y w h f k => rfl, fun i cx cy r f k => rfl, ?_⟩
  · unfold handleInsert
    rw [hsp, hsid]
  · intro i cs d f k hi
    unfold insertIntoShape
    simp only [if_neg hi]
  · intro cs d f k hcl
    have hn : pt.cmdIndex + 1 ≤ cs.length := by omega
    refine ⟨spliceInsert cs (pt.cmdIndex + 1) ⟨code, [pt.x, pt.y]⟩, ?_, ?_, ?_, ?_, ?_⟩
    · unfold insertIntoShape
      simp
    · exact spliceInsert_length cs (pt.cmdIndex + 1) _ hn
    · exact spliceInsert_getD_self cs (pt.cmdIndex + 1) _ _ hn
    · intro j hj
      exact spliceInsert_getD_lt cs (pt.cmdIndex + 1) _ _ j (by omega) hn
    · intro j hj1 hj2
      exact spliceInsert_getD_ge cs (pt.cmdIndex + 1) _ _ j (by omega) hj2

/-- Witness for C2: inserting `L` after the point at (10,10) in
`"M 10 10 L 20 20"` gives `M 10 10, L 10 10, L 20 20`, which resolves to the
three points (10,10), (10,10), (20,20). -/
theorem c2_insert_amended_witness :
    exState.selectedPoint = some ⟨10, 10, 0, 0⟩
    ∧ (handleInsert exState 'L').shapes =
        exState.shapes.map (insertIntoShape 0 ⟨10, 10, 0, 0⟩ 'L')
    ∧ (handleInsert exState 'L').shapes.getD 0 (Shape.rect 0 0 0 0 0 "" "") =
        Shape.path 0 [⟨'M', [10, 10]⟩, ⟨'L', [10, 10]⟩, ⟨'L', [20, 20]⟩]
          (commandsToString [⟨'M', [10, 10]⟩, ⟨'L', [10, 10]⟩, ⟨'L', [20, 20]⟩])
          "#000000" "#000000"
    ∧ getPathPoints [⟨'M', [10, 10]⟩, ⟨'L', [10, 10]⟩, ⟨'L', [20, 20]⟩] =
        [⟨10, 10, 0, 0⟩, ⟨10, 10, 1, 0⟩, ⟨20, 20, 2, 0⟩] :=
  ⟨by decide,
   (c2_insert_amended exState 'L' ⟨10, 10, 0, 0⟩ 0 (by decide) (by decide)).1,
   by decide, by decide⟩

/-- C2 counterexample: Insert with code `H` seeds the new command with the full
coordinate pair `[10, 10]` — not the code-appropriate arity `[x]` the claim
states — so the per-code seeding rule is false for `handleInsert`. -/
theorem c2_counterexample :
    (handleInsert exState 'H').shapes.getD 0 (Shape.rect 0 0 0 0 0 "" "") =
      Shape.path 0 [⟨'M', [10, 10]⟩, ⟨'H', [10, 10]⟩, ⟨'L', [20, 20]⟩]
        (commandsToString [⟨'M', [10, 10]⟩, ⟨'H', [10, 10]⟩, ⟨'L', [20, 20]⟩])
        "#000000" "#000000"
    ∧ (⟨'H', [10, 10]⟩ : PathCommand).values ≠ [(10 : ℤ)] := by decide

/-- A freshly re-serialized path shape is cache-coherent by construction. -/
theorem pathConsistent_fresh (i : ℕ) (cs : List PathCommand) (f k : String) :
    pathConsistent (Shape.path i cs (commandsToString cs) f k) = true := by
  unfold pathConsistent
  simp

/-- Insert's per-shape body preserves cache coherence. -/
theorem pathConsistent_insertIntoShape (sid : ℕ) (pt : PathPoint) (code : Char)
    (s : Shape) (h : pathConsistent s = true) :
    pathConsistent (insertIntoShape sid pt code s) = true := by
  cases s with
  | rect i x y w hh f k => exact h
  | circle i cx cy r f k => exact h
  | path i cs d f k =>
    unfold insertIntoShape
    dsimp only
    by_cases hi : i = sid
    · rw [if_pos hi]
      exact pathConsistent_fresh i _ f k
    · rw [if_neg hi]
      exact h

/-- Convert's per-shape body preserves cache coherence. -/
theorem pathConsistent_convertShape (sid : ℕ) (pt : PathPoint) (code : Char)
    (s : Shape) (h : pathConsistent s = true) :
    pathConsistent (convertShape sid pt code s) = true := by
  cases s with
  | rect i x y w hh f k => exact h
  | circle i cx cy r f k => exact h
  | path i cs d f k =>
    unfold convertShape
    dsimp only
    by_cases hi : i = sid
    · rw [if_pos hi]
      exact pathConsistent_fresh i _ f k
    · rw [if_neg hi]
      exact h

/-- Set-relative's per-shape body preserves cache coherence. -/
theorem pathConsistent_setRelShape (sid : ℕ) (pt : PathPoint)
    (s : Shape) (h : pathConsistent s = true) :
    pathConsistent (setRelShape sid pt s) = true := by
  cases s with
  | rect i x y w hh f k => exact h
  | circle i cx cy r f k => exact h
  | path i cs d f k =>
    unfold setRelShape
    dsimp only
    by_cases hi : i = sid
    · rw [if_pos hi]
      exact pathConsistent_fresh i _ f k
    · rw [if_neg hi]
      exact h

/-- Delete's per-shape body preserves cache coherence. -/
theorem pathConsistent_deleteShape (sid : ℕ) (pt : PathPoint)
    (s : Shape) (h : pathConsistent s = true) :
    pathConsistent (deleteShape sid pt s) = true := by
  cases s with
  | rect i x y w hh f k => exact h
  | circle i cx cy r f k => exact h
  | path i cs d f k =>
    unfold deleteShape
    dsimp only
    by_cases hi : i = sid
    · rw [if_pos hi]
      exact pathConsistent_fresh i _ f k
    · rw [if_neg hi]
      exact h

/-- The point-drag body preserves cache coherence. -/
theorem pathConsistent_moveInShape (sel : Option ℕ) (pt : PathPoint) (nx ny : ℤ)
    (s : Shape) (h : pathConsistent s = true) :
    pathConsistent (moveInShape sel pt nx ny s) = true := by
  cases s with
  | rect i x y w hh f k => exact h
  | circle i cx cy r f k => exact h
  | path i cs d f k =>
    unfold moveInShape
    dsimp only
    by_cases hi : some i = sel
    · rw [if_pos hi]
      exact pathConsistent_fresh i _ f k
    · rw [if_neg hi]
      exact h

/-- C1 (amended): after every point move or structural path edit, every path
shape whose cache was coherent stays coherent, and the edited shape's `d` is
regenerated as `commandsToString` of its new command list — so the invariant
holds across all edits. Import, by contrast, stores the raw attribute string,
which can differ textually from the serialization of its parsed commands (see
the counterexample). -/
theorem c1_amended (st : EditorState) (op : EditOp)
    (h : ∀ s ∈ st.shapes, pathConsistent s = true) :
    ∀ s ∈ (applyEdit st op).shapes, pathConsistent s = true := by
  cases op with
  | insertCmd code =>
    show ∀ s ∈ (handleInsert st code).shapes, pathConsistent s = true
    unfold handleInsert
    cases hsp : st.selectedPoint with
    | none => cases hsid : st.selectedId with
      | none => exact h
      | some sid => exact h
    | some pt => cases hsid : st.selectedId with
      | none => exact h
      | some sid =>
        intro s hs
        obtain ⟨s0, hs0, rfl⟩ := List.mem_map.mp hs
        exact pathConsistent_insertIntoShape sid pt code s0 (h s0 hs0)
  | convertCmd code =>
    show ∀ s ∈ (handleConvert st code).shapes, pathConsistent s = true
    unfold handleConvert
    cases hsp : st.selectedPoint with
    | none => cases hsid : st.selectedId with
      | none => exact h
      | some sid => exact h
    | some pt => cases hsid : st.selectedId with
      | none => exact h
      | some sid =>
        intro s hs
        obtain ⟨s0, hs0, rfl⟩ := List.mem_map.mp hs
        exact pathConsistent_convertShape sid pt code s0 (h s0 hs0)
  | setRel =>
    show ∀ s ∈ (handleSetRelative st).shapes, pathConsistent s = true
    unfold handleSetRelative
    cases hsp : st.selectedPoint with
    | none => cases hsid : st.selectedId with
      | none => exact h
      | some sid => exact h
    | some pt => cases hsid : st.selectedId with
      | none => exact h
      | some sid =>
        intro s hs
        obtain ⟨s0, hs0, rfl⟩ := List.mem_map.mp hs
        exact pathConsistent_setRelShape sid pt s0 (h s0 hs0)
  | deleteCmd =>
    show ∀ s ∈ (handleDeletePoint st).shapes, pathConsistent s = true
    unfold handleDeletePoint
    cases hsp : st.selectedPoint with
    | none => cases hsid : st.selectedId with
      | none => exact h
      | some sid => exact h
    | some pt => cases hsid : st.selectedId with
      | none => exact h
      | some sid =>
        intro s hs
        obtain ⟨s0, hs0, rfl⟩ := List.mem_map.mp hs
        exact pathConsistent_deleteShape sid pt s0 (h s0 hs0)
  | movePt x y =>
    show ∀ s ∈ (dragPointMove st x y).shapes, pathConsistent s = true
    unfold dragPointMove
    cases hdp : st.draggingPoint with
    | none => cases hdo : st.dragOffset with
      | none => exact h
      | some off => exact h
    | some pt => cases hdo : st.dragOffset with
      | none => exact h
      | some off =>
        intro s hs
        obtain ⟨s0, hs0, rfl⟩ := List.mem_map.mp hs
        exact pathConsistent_moveInShape st.selectedId pt _ _ s0 (h s0 hs0)

/-- Witness for C1 on the concrete example state, inserting an `L` command. -/
theorem c1_amended_witness :
    (∀ s ∈ exState.shapes, pathConsistent s = true)
    ∧ (∀ s ∈ (applyEdit exState (EditOp.insertCmd 'L')).shapes,
        pathConsistent s = true) :=
  ⟨by decide, c1_amended exState (EditOp.insertCmd 'L') (by decide)⟩

/-- C1 counterexample: importing a path whose attribute reads `"M 10 10"`
stores that raw string as the cached `d`, while the serialization of its parsed
commands is `"M10 10"` — so right after creation by import the cached text is
not `commandsToString(commands)`. -/
theorem c1_counterexample :
    (handleFile emptyState exDoc).shapes.length = 1
    ∧ (handleFile emptyState exDoc).shapes.getD 0 (Shape.rect 0 0 0 0 0 "" "") =
        Shape.path 0 [⟨'M', [10, 10]⟩] "M 10 10" "transparent" "black"
    ∧ commandsToString [⟨'M', [10, 10]⟩] ≠ "M 10 10"
    ∧ pathConsistent ((handleFile emptyState exDoc).shapes.getD 0
        (Shape.rect 0 0 0 0 0 "" "")) = false := by decide

/-- C5 (amended): the redo stack is emptied by every snapshot-guarded action —
drawing start, shape-drag start, point-drag start, fill or stroke change with a
selected shape, and clear on a nonempty canvas — but the structural path edits
(insert, convert, set-relative, delete) and the point-drag moves leave `future`
exactly as it was, so a structural edit performed after an undo does not clear
the redo stack (see the counterexample). -/
theorem c5_amended :
    (∀ (st : EditorState) (x y : ℤ), (onMouseDown st x y).future = [])
    ∧ (∀ (st : EditorState) (sh : Shape) (x y : ℤ),
        (onShapeMouseDown st sh x y).future = [])
    ∧ (∀ (st : EditorState) (sid : ℕ) (pt : PathPoint) (x y : ℤ),
        (onPointMouseDown st sid pt x y).future = [])
    ∧ (∀ (st : EditorState) (v : String), (selShape st).isSome = true →
        (setFillColor st v).future = [])
    ∧ (∀ (st : EditorState) (v : String), (selShape st).isSome = true →
        (setStrokeColor st v).future = [])
    ∧ (∀ st : EditorState, st.shapes ≠ [] → (clear st).future = [])
    ∧ (∀ (st : EditorState) (code : Char), (handleInsert st code).future = st.future)
    ∧ (∀ (st : EditorState) (code : Char), (handleConvert st code).future = st.future)
    ∧ (∀ st : EditorState, (handleSetRelative st).future = st.future)
    ∧ (∀ st : EditorState, (handleDeletePoint st).future = st.future)
    ∧ (∀ (st : EditorState) (x y : ℤ), (dragPointMove st x y).future = st.future) := by
  refine ⟨fun st x y => rfl, fun st sh x y => ?_, fun st sid pt x y => rfl,
    ?_, ?_, ?_, ?_, ?_, ?_, ?_, ?_⟩
  · cases sh <;> rfl
  · intro st v hsel
    obtain ⟨sh, hsh⟩ := Option.isSome_iff_exists.mp hsel
    unfold setFillColor
    rw [hsh]
  · intro st v hsel
    obtain ⟨sh, hsh⟩ := Option.isSome_iff_exists.mp hsel
    unfold setStrokeColor
    rw [hsh]
  · intro st hne
    unfold clear
    rw [if_neg (by simpa using hne)]
  · intro st code
    unfold handleInsert
    cases hsp : st.selectedPoint <;> cases hsid : st.selectedId <;> rfl
  · intro st code
    unfold handleConvert
    cases hsp : st.selectedPoint <;> cases hsid : st.selectedId <;> rfl
  · intro st
    unfold handleSetRelative
    cases hsp : st.selectedPoint <;> cases hsid : st.selectedId <;> rfl
  · intro st
    unfold handleDeletePoint
    cases hsp : st.selectedPoint <;> cases hsid : st.selectedId <;> rfl
  · intro st x y
    unfold dragPointMove
    cases hdp : st.draggingPoint <;> cases hdo : st.dragOffset <;> rfl

/-- Witness for C5: a draw clears the pending redo entry, an insert keeps it. -/
theorem c5_amended_witness :
    (onMouseDown exStateRedo 1 2).future = []
    ∧ (handleInsert exStateRedo 'L').future = exStateRedo.future :=
  ⟨c5_amended.1 exStateRedo 1 2, c5_amended.2.2.2.2.2.2.1 exStateRedo 'L'⟩

/-- C5 counterexample: in a state with a pending redo entry, Insert — a
user-initiated mutating action that really changes the shapes — leaves the
future stack nonempty, so the claim that every mutating action empties it is
false on the code. -/
theorem c5_counterexample :
    exStateRedo.future ≠ []
    ∧ (handleInsert exStateRedo 'L').shapes ≠ exStateRedo.shapes
    ∧ (handleInsert exStateRedo 'L').future = [[]]
    ∧ (handleInsert exStateRedo 'L').future ≠ [] := by decide

/-- C6 (amended): for every starting state and every sequence of
snapshot-recording mutating actions (drawing start, shape/point drag start,
fill or stroke change, clear — each actually recording in the state it meets),
performing as many undos afterwards restores both the shape list and the
history to exactly their state before the first action. The structural path
edits are excluded: they record no snapshot, so one of them breaks the round
trip (see the counterexample). -/
theorem c6_amended (ms : List MutAction) :
    ∀ st : EditorState, wfSeq st ms = true →
      (undo^[ms.length] (applyMuts st ms)).shapes = st.shapes
      ∧ (undo^[ms.length] (applyMuts st ms)).history = st.history := by
  induction ms with
  | nil => intro st _; exact ⟨rfl, rfl⟩
  | cons m rest ih =>
    intro st h
    have h' : recordsOkB st m = true ∧ wfSeq (applyMut st m) rest = true := by
      have hh : (recordsOkB st m && wfSeq (applyMut st m) rest) = true := h
      exact Bool.and_eq_true_iff.mp hh
    have hrec := applyMut_records st m h'.1
    have hih := ih (applyMut st m) h'.2
    have happ : applyMuts st (m :: rest) = applyMuts (applyMut st m) rest := rfl
    have hlen : (m :: rest).length = rest.length + 1 := rfl
    rw [happ, hlen, Function.iterate_succ_apply']
    have hx : (undo^[rest.length] (applyMuts (applyMut st m) rest)).history
        = st.history ++ [st.shapes] := by
      rw [hih.2, hrec.1]
    have hu := undo_push (undo^[rest.length] (applyMuts (applyMut st m) rest))
      st.shapes st.history hx
    rw [hu]
    exact ⟨rfl, rfl⟩

/-- Witness for C6: draw then clear, then two undos, returns to the empty
canvas. -/
theorem c6_amended_witness :
    wfSeq emptyState [MutAction.draw 1 2, MutAction.clearAct] = true
    ∧ (undo^[([MutAction.draw 1 2, MutAction.clearAct] : List MutAction).length]
        (applyMuts emptyState [MutAction.draw 1 2, MutAction.clearAct])).shapes
      = emptyState.shapes :=
  ⟨by decide,
   (c6_amended [MutAction.draw 1 2, MutAction.clearAct] emptyState (by decide)).1⟩

/-- C6 counterexample: one mutating action (Insert) followed by one undo does
not restore the shape list — Insert pushes nothing onto history, so the undo
finds an empty stack and is a no-op while the shapes stay mutated. -/
theorem c6_counterexample :
    (undo (handleInsert exState 'L')).shapes ≠ exState.shapes := by decide

/-! Auxiliary lemmas: import identifier assignment. -/

/-- Loaded rect shapes take consecutive identifiers from the counter. -/
theorem loadRects_ids (els : List RectEl) :
    ∀ i, (loadRects i els).map Shape.id = List.range' i els.length := by
  induction els with
  | nil => intro i; rfl
  | cons el rest ih =>
    intro i
    show Shape.id (.rect i (el.x.getD 0) (el.y.getD 0) (el.width.getD 0)
        (el.height.getD 0) (el.fill.getD "transparent") (el.stroke.getD "black"))
      :: (loadRects (i + 1) rest).map Shape.id = List.range' i (rest.length + 1)
    rw [ih (i + 1), List.range'_succ]
    rfl

/-- Loaded circle shapes take consecutive identifiers from the counter. -/
theorem loadCircles_ids (els : List CircleEl) :
    ∀ i, (loadCircles i els).map Shape.id = List.range' i els.length := by
  induction els with
  | nil => intro i; rfl
  | cons el rest ih =>
    intro i
    show Shape.id (.circle i (el.cx.getD 0) (el.cy.getD 0) (el.r.getD 0)
        (el.fill.getD "transparent") (el.stroke.getD "black"))
      :: (loadCircles (i + 1) rest).map Shape.id = List.range' i (rest.length + 1)
    rw [ih (i + 1), List.range'_succ]
    rfl

/-- Loaded path shapes take consecutive identifiers from the counter. -/
theorem loadPaths_ids (els : List PathEl) :
    ∀ i, (loadPaths i els).map Shape.id = List.range' i els.length := by
  induction els with
  | nil => intro i; rfl
  | cons el rest ih =>
    intro i
    show Shape.id (.path i (parsePath (el.d.getD "")) (el.d.getD "")
        (el.fill.getD "transparent") (el.stroke.getD "black"))
      :: (loadPaths (i + 1) rest).map Shape.id = List.range' i (rest.length + 1)
    rw [ih (i + 1), List.range'_succ]
    rfl

/-- C8: import replaces the entire shape list with the shapes parsed from the
document (rects, then circles, then paths — the order the three element scans
produce), assigns them fresh sequential identifiers continuing from the current
counter, leaves the counter advanced past them, and pushes nothing onto the
past (undo) stack — the future stack is likewise untouched — so the import is
not undoable. -/
theorem c8_import (st : EditorState) (doc : SvgDoc) :
    (handleFile st doc).shapes.map Shape.id =
      List.range' st.idCounter
        (doc.rects.length + doc.circles.length + doc.paths.length)
    ∧ (handleFile st doc).shapes.length =
        doc.rects.length + doc.circles.length + doc.paths.length
    ∧ (handleFile st doc).idCounter =
        st.idCounter + doc.rects.length + doc.circles.length + doc.paths.length
    ∧ (handleFile st doc).history = st.history
    ∧ (handleFile st doc).future = st.future := by
  have hmap : (handleFile st doc).shapes.map Shape.id =
      List.range' st.idCounter
        (doc.rects.length + doc.circles.length + doc.paths.length) := by
    show ((loadRects st.idCounter doc.rects
        ++ loadCircles (st.idCounter + doc.rects.length) doc.circles)
        ++ loadPaths (st.idCounter + doc.rects.length + doc.circles.length)
            doc.paths).map Shape.id = _
    rw [List.map_append, List.map_append, loadRects_ids, loadCircles_ids,
      loadPaths_ids]
    have h1 : List.range' st.idCounter doc.rects.length ++
        List.range' (st.idCounter + doc.rects.length) doc.circles.length =
        List.range' st.idCounter (doc.rects.length + doc.circles.length) := by
      rw [List.range'_append_1]
      congr 1
      omega
    have h2 : List.range' st.idCounter (doc.rects.length + doc.circles.length) ++
        List.range' (st.idCounter + (doc.rects.length + doc.circles.length))
          doc.paths.length =
        List.range' st.idCounter
          (doc.rects.length + doc.circles.length + doc.paths.length) := by
      rw [List.range'_append_1]
      congr 1
      omega
    rw [h1, show st.idCounter + doc.rects.length + doc.circles.length =
      st.idCounter + (doc.rects.length + doc.circles.length) from by omega, h2]
  refine ⟨hmap, ?_, rfl, rfl, rfl⟩
  have := congrArg List.length hmap
  simpa using this

/-- C10: undo and redo preserve the total number of stored snapshots — on an
empty source stack they are identities, and on a nonempty one exactly one
snapshot moves between the stacks (undo shrinks history by one and grows future
by one; redo the mirror), so |past| + |future| never changes. -/
theorem c10_history_counts (st : EditorState) :
    (undo st).history.length + (undo st).future.length
      = st.history.length + st.future.length
    ∧ (redo st).history.length + (redo st).future.length
      = st.history.length + st.future.length
    ∧ (st.history = [] → undo st = st)
    ∧ (st.history ≠ [] → (undo st).history.length + 1 = st.history.length
        ∧ (undo st).future.length = st.future.length + 1)
    ∧ (st.future = [] → redo st = st)
    ∧ (st.future ≠ [] → (redo st).future.length + 1 = st.future.length
        ∧ (redo st).history.length = st.history.length + 1) := by
  have hundo : st.history ≠ [] → (undo st).history.length + 1 = st.history.length
      ∧ (undo st).future.length = st.future.length + 1 := by
    intro hh
    have hx : st.history = st.history.dropLast ++ [st.history.getLast hh] :=
      (List.dropLast_concat_getLast hh).symm
    rw [undo_push st (st.history.getLast hh) st.history.dropLast hx]
    constructor
    · show st.history.dropLast.length + 1 = st.history.length
      conv_rhs => rw [hx]
      simp
    · show (snapshot st.shapes :: st.future).length = st.future.length + 1
      simp
  have hredo : st.future ≠ [] → (redo st).future.length + 1 = st.future.length
      ∧ (redo st).history.length = st.history.length + 1 := by
    intro hf
    match hfx : st.future with
    | [] => exact absurd hfx hf
    | nx :: rest =>
      rw [redo_pop st nx rest hfx]
      constructor
      · show rest.length + 1 = (nx :: rest).length
        rfl
      · show (st.history ++ [snapshot st.shapes]).length = st.history.length + 1
        simp
  refine ⟨?_, ?_, undo_empty st, hundo, redo_empty st, hredo⟩
  · by_cases hh : st.history = []
    · rw [undo_empty st hh]
    · obtain ⟨h1, h2⟩ := hundo hh
      omega
  · by_cases hf : st.future = []
    · rw [redo_empty st hf]
    · obtain ⟨h1, h2⟩ := hredo hf
      omega

/-- Witness for C10 at a concrete state with one pending undo entry. -/
theorem c10_history_counts_witness :
    (undo { exState with history := [[]] }).history.length
        + (undo { exState with history := [[]] }).future.length
      = ({ exState with history := [[]] } : EditorState).history.length
        + ({ exState with history := [[]] } : EditorState).future.length :=
  (c10_history_counts { exState with history := [[]] }).1
